import Mathlib

/-!
Bid catalogue on two unbalanced binary search trees.

A value-level embedding of `BinarySearchTree.cpp`: the class `BinarySearchTree`
keeps every inserted `Bid` in two trees, one linked through `bidLeft`/`bidRight`
and ordered by `bidId`, one linked through `amountLeft`/`amountRight` and ordered
by `amount`.

Conventions of the embedding

* `std::string` is `String`; `a.compare(b) < 0` is `a.data < b.data`, the
  lexicographic order on the sequences of characters, and `a.compare(b) == 0` is `a = b`.
* `double` amounts are taken as exact rationals.
* A `Node*` is the tree of nodes reachable from it; `nullptr` is the empty tree.
  The two trees never share a node, and a node of one tree never uses the links of
  the other, so one tree type serves both.
* The methods that print one line per bid return the list of bids printed.
* `delete node` runs the destructor `~Node()`, which deletes the children of the node
  with it. The trees of the embedding are the well-formed ones, in which every link is
  null or points to a node that exists. A call that leaves a pointer to a deleted node
  behind, in the value it returns or in a link or in `root`, has the result `none`.
-/

namespace BST

/-- The record `struct Bid`; the default values are those of the constructor `Bid()`. -/
structure Bid where
  bidId : String := ""
  title : String := ""
  fund : String := ""
  amount : ℚ := 0
  deriving DecidableEq

/-- A `Node*`: `nullptr`, or a node with its left link, its bid and its right link
(`bidLeft`, `bidRight` in the key tree, `amountLeft`, `amountRight` in the amount tree). -/
inductive Node where
  | nullptr : Node
  | mk (left : Node) (bid : Bid) (right : Node) : Node
  deriving DecidableEq

/-- The test `node == nullptr`. -/
def Node.isNull : Node → Bool
  | .nullptr => true
  | .mk _ _ _ => false

/-- The result of `new Node(bid)`: a node with both links null. -/
def Node.new (bid : Bid) : Node := .mk .nullptr bid .nullptr

/-- The data members of `class BinarySearchTree`. -/
structure BinarySearchTree where
  root : Node
  amountRoot : Node
  deriving DecidableEq

/-- The constructor `BinarySearchTree()`: both roots are `nullptr`. -/
def BinarySearchTree.empty : BinarySearchTree := ⟨.nullptr, .nullptr⟩

/-- The method `addBid(node, bid)`: the tree under `node` after the call. The callers
only pass a non-null `node`. -/
def addBid : Node → Bid → Node
  | .nullptr, _ => .nullptr
  | .mk l b r, bid =>
    if bid.bidId.data < b.bidId.data then
      if l.isNull then .mk (Node.new bid) b r else .mk (addBid l bid) b r
    else
      if r.isNull then .mk l b (Node.new bid) else .mk l b (addBid r bid)

/-- The method `addAmountNode(node, bid)`: the tree under `node` after the call. The
callers only pass a non-null `node`. -/
def addAmountNode : Node → Bid → Node
  | .nullptr, _ => .nullptr
  | .mk l b r, bid =>
    if b.amount > bid.amount then
      if l.isNull then .mk (Node.new bid) b r else .mk (addAmountNode l bid) b r
    else
      if r.isNull then .mk l b (Node.new bid) else .mk l b (addAmountNode r bid)

/-- The method `inBidOrder(node)`: left subtree, the node, right subtree. -/
def inBidOrder : Node → List Bid
  | .nullptr => []
  | .mk l b r => inBidOrder l ++ b :: inBidOrder r

/-- The method `inAmountOrder(node)`: left subtree, the node, right subtree. -/
def inAmountOrder : Node → List Bid
  | .nullptr => []
  | .mk l b r => inAmountOrder l ++ b :: inAmountOrder r

/-- The method `amountSearch(node, lowAmount, highAmount)`: both subtrees are always
visited, the node is printed when its amount lies in the closed range. -/
def amountSearch : Node → ℚ → ℚ → List Bid
  | .nullptr, _, _ => []
  | .mk l b r, lowAmount, highAmount =>
    amountSearch l lowAmount highAmount
      ++ (if b.amount ≥ lowAmount ∧ b.amount ≤ highAmount then [b] else [])
      ++ amountSearch r lowAmount highAmount

/-- The loop `while (temp->bidLeft != nullptr) temp = temp->bidLeft;` of `removeNode`,
started at `temp`: the bid of the node where it stops. It is started at a right child
that is not null. -/
def leftmost : Node → Bid
  | .nullptr => {}
  | .mk l b _ => if l.isNull then b else leftmost l

/-- The method `removeNode(node, bidId)`: the tree under the returned pointer, or `none`
when the returned pointer or a link below it points to a deleted node. In both one-child
branches the code returns `node->bidRight` and then runs `delete temp`, which deletes the
matched node together with its children. With a left child only, the pointer returned is
null and the left subtree is deleted with the node. With a right child only, the pointer
returned is the right child, which `delete temp` has just deleted. -/
def removeNode : Node → String → Option Node
  | .nullptr, _ => some .nullptr
  | .mk l b r, bidId =>
    if bidId.data < b.bidId.data then (removeNode l bidId).map fun l2 => .mk l2 b r
    else if b.bidId.data < bidId.data then (removeNode r bidId).map fun r2 => .mk l b r2
    else if l.isNull && r.isNull then some .nullptr
    else if !l.isNull && r.isNull then some r
    else if !r.isNull && l.isNull then none
    else (removeNode r (leftmost r).bidId).map fun r2 => .mk l (leftmost r) r2

/-- The tree under the pointer `node` itself once `removeNode(node, bidId)` has run, for
a caller that does not use the returned pointer, or `none` when `node` or a link below it
points to a deleted node afterwards. The call relinks the children of `node` and
overwrites its bid in place; when `node` is the matched node and has fewer than two
children, the call deletes it, so the pointer that the caller kept points to a deleted
node. -/
def removeNodeInPlace : Node → String → Option Node
  | .nullptr, _ => some .nullptr
  | .mk l b r, bidId =>
    if bidId.data < b.bidId.data then (removeNode l bidId).map fun l2 => .mk l2 b r
    else if b.bidId.data < bidId.data then (removeNode r bidId).map fun r2 => .mk l b r2
    else if l.isNull || r.isNull then none
    else (removeNode r (leftmost r).bidId).map fun r2 => .mk l (leftmost r) r2

/-- The loop of `BidSearch`, started with `current` at the given node. -/
def bidSearchFrom : Node → String → Bid
  | .nullptr, _ => {}
  | .mk l b r, bidId =>
    if b.bidId = bidId then b
    else if bidId.data < b.bidId.data then bidSearchFrom l bidId
    else bidSearchFrom r bidId

/-- The method `Insert(bid)`. -/
def Insert (t : BinarySearchTree) (bid : Bid) : BinarySearchTree :=
  { root := if t.root.isNull then Node.new bid else addBid t.root bid
    amountRoot := if t.amountRoot.isNull then Node.new bid else addAmountNode t.amountRoot bid }

/-- The method `Remove(bidId)`: it calls `removeNode(root, bidId)` and drops the pointer
that the call returns, so `root` keeps its value and `amountRoot` is not touched. The
result is `none` when `root` or a link of the key tree points to a deleted node
afterwards. -/
def Remove (t : BinarySearchTree) (bidId : String) : Option BinarySearchTree :=
  (removeNodeInPlace t.root bidId).map fun n => { t with root := n }

/-- The method `BidSearch(bidId)`; the bid `Bid()` with empty `bidId` stands for
"not found". -/
def BidSearch (t : BinarySearchTree) (bidId : String) : Bid :=
  bidSearchFrom t.root bidId

/-- The method `InBidOrder()`. -/
def InBidOrder (t : BinarySearchTree) : List Bid := inBidOrder t.root

/-- The method `InAmountOrder()`. -/
def InAmountOrder (t : BinarySearchTree) : List Bid := inAmountOrder t.amountRoot

/-- The method `AmountSearch(lowAmount, highAmount)`. -/
def AmountSearch (t : BinarySearchTree) (lowAmount highAmount : ℚ) : List Bid :=
  amountSearch t.amountRoot lowAmount highAmount

/-- The state after inserting the bids of a sequence, in order, into an empty tree. -/
def insertAll (bids : List Bid) : BinarySearchTree :=
  bids.foldl Insert BinarySearchTree.empty

/-- The update of a `bidLeft`/`bidRight` slot (or of `root`) that `Insert` and `addBid`
share: a null slot receives `new Node(bid)`, any other node is handed to `addBid`. -/
def insertKey (n : Node) (bid : Bid) : Node :=
  if n.isNull then Node.new bid else addBid n bid

/-- The update of an `amountLeft`/`amountRight` slot (or of `amountRoot`) that `Insert`
and `addAmountNode` share. -/
def insertAmount (n : Node) (bid : Bid) : Node :=
  if n.isNull then Node.new bid else addAmountNode n bid

/-- Two bids in non-decreasing order of `bidId`. -/
def idLe (a b : Bid) : Prop := a.bidId.data ≤ b.bidId.data

/-- Two bids in non-decreasing order of `amount`. -/
def amountLe (a b : Bid) : Prop := a.amount ≤ b.amount

instance idLe.decidable : DecidableRel idLe :=
  fun a b => inferInstanceAs (Decidable (a.bidId.data ≤ b.bidId.data))

instance amountLe.decidable : DecidableRel amountLe :=
  fun a b => inferInstanceAs (Decidable (a.amount ≤ b.amount))

/-- The amount of a bid lies in the closed range from `low` to `high`. -/
def inRange (low high : ℚ) (b : Bid) : Bool :=
  decide (low ≤ b.amount ∧ b.amount ≤ high)

/-- Two bids in increasing order of `bidId`. -/
def idLt (a b : Bid) : Prop := a.bidId.data < b.bidId.data

instance idLt.decidable : DecidableRel idLt :=
  fun a b => inferInstanceAs (Decidable (a.bidId.data < b.bidId.data))

/-- The ordering invariant of the key tree: at every node the ids of the left subtree are
less than or equal to the id of the node, those of the right subtree greater or equal. -/
def KeyOrdered : Node → Prop
  | .nullptr => True
  | .mk l b r =>
    (∀ x ∈ inBidOrder l, idLe x b) ∧ (∀ x ∈ inBidOrder r, idLe b x) ∧
      KeyOrdered l ∧ KeyOrdered r

instance KeyOrdered.decidable : (n : Node) → Decidable (KeyOrdered n)
  | .nullptr => isTrue trivial
  | .mk l b r =>
    haveI := KeyOrdered.decidable l
    haveI := KeyOrdered.decidable r
    inferInstanceAs (Decidable ((∀ x ∈ inBidOrder l, idLe x b) ∧
      (∀ x ∈ inBidOrder r, idLe b x) ∧ KeyOrdered l ∧ KeyOrdered r))

/-- No two nodes of the key tree carry the same id. -/
def DistinctIds (n : Node) : Prop := ((inBidOrder n).map fun b => b.bidId).Nodup

instance DistinctIds.decidable (n : Node) : Decidable (DistinctIds n) :=
  inferInstanceAs (Decidable (List.Nodup ((inBidOrder n).map fun b : Bid => b.bidId)))

/-- The node that the descent of `removeNode` matches for `bidId`: left when `bidId` is
smaller than the id of the node, right when it is larger, the node itself otherwise;
`nullptr` when the descent runs off the tree. -/
def findNode : Node → String → Node
  | .nullptr, _ => .nullptr
  | .mk l b r, bidId =>
    if bidId.data < b.bidId.data then findNode l bidId
    else if b.bidId.data < bidId.data then findNode r bidId
    else .mk l b r

/-- A call of one of the two mutating methods. -/
inductive Op where
  | insert (bid : Bid) : Op
  | remove (bidId : String) : Op

/-- The state after one call, or `none` when the call leaves a pointer to a deleted
node. -/
def Op.apply (t : BinarySearchTree) : Op → Option BinarySearchTree
  | .insert bid => some (Insert t bid)
  | .remove bidId => Remove t bidId

/-- The state after a sequence of calls on the given state, or `none` when one of the
calls leaves a pointer to a deleted node: what the calls after it do is not defined. -/
def runOpsFrom : BinarySearchTree → List Op → Option BinarySearchTree
  | t, [] => some t
  | t, op :: ops => (Op.apply t op).bind fun s => runOpsFrom s ops

/-- The state after a sequence of calls on an empty tree. -/
def runOps (ops : List Op) : Option BinarySearchTree :=
  runOpsFrom BinarySearchTree.empty ops

/-- What the lookup contract promises for `bidId` after a sequence of calls: the bid
inserted under `bidId` when it was inserted and not removed afterwards, the default bid
otherwise. -/
def lookupContract (ops : List Op) (bidId : String) : Bid :=
  ops.foldl
    (fun acc op =>
      match op with
      | .insert bid => if bid.bidId = bidId then bid else acc
      | .remove i => if i = bidId then {} else acc)
    {}

/-- Three bids with distinct ids and amounts, inserted in this order. -/
def sampleBids : List Bid :=
  [{ bidId := "A1", amount := 500 }, { bidId := "B2", amount := 300 },
   { bidId := "C3", amount := 750 }]

/-- Three bids inserted in this order: the node of `"D"` ends up with the node of `"B"`
as its left child and no right child, below the root `"M"`. -/
def leftChildBids : List Bid := [{ bidId := "M" }, { bidId := "D" }, { bidId := "B" }]

/-- Five bids inserted in this order: the root `"D"` has the children `"B"` and `"F"`,
and `"F"` has the children `"E"` and `"G"`, so the in-order successor of `"D"` is the
leaf `"E"`. -/
def twoChildBids : List Bid :=
  [{ bidId := "D" }, { bidId := "B" }, { bidId := "F" }, { bidId := "E" }, { bidId := "G" }]

/-- Three bids inserted in this order: the node of `"D"` ends up with the node of `"F"`
as its right child and no left child, below the root `"M"`. -/
def rightChildBids : List Bid := [{ bidId := "M" }, { bidId := "D" }, { bidId := "F" }]

/-- Four bids inserted in this order: the root `"D"` has the children `"B"` and `"F"`,
and its in-order successor `"F"` has the right child `"G"` and no left child. -/
def successorRightBids : List Bid :=
  [{ bidId := "D" }, { bidId := "B" }, { bidId := "F" }, { bidId := "G" }]

/-- A bid that is inserted twice. -/
def dupBid : Bid := { bidId := "X", amount := 10 }

/-- The loop of `BidSearch` with its two exits told apart: `some` of the bid at the first
node on the descent whose id is `bidId`, `none` when the descent reaches `nullptr`. -/
def bidSearchOpt : Node → String → Option Bid
  | .nullptr, _ => none
  | .mk l b r, bidId =>
    if b.bidId = bidId then some b
    else if bidId.data < b.bidId.data then bidSearchOpt l bidId
    else bidSearchOpt r bidId

/-- The nodes at which `amountSearch(node, lowAmount, highAmount)` runs its range test, in
the order of the calls: the left subtree, the node, the right subtree. -/
def amountSearchVisited : Node → ℚ → ℚ → List Bid
  | .nullptr, _, _ => []
  | .mk l b r, lowAmount, highAmount =>
    amountSearchVisited l lowAmount highAmount ++ b :: amountSearchVisited r lowAmount highAmount

/-- The recursion of `removeNode` with a bound on the depth of the nested calls: `none`
when the bound is used up before the call returns, `some` of what the call returns
otherwise. -/
def removeNodeFuel : Nat → Node → String → Option (Option Node)
  | 0, _, _ => none
  | _ + 1, .nullptr, _ => some (some .nullptr)
  | fuel + 1, .mk l b r, bidId =>
    if bidId.data < b.bidId.data then
      (removeNodeFuel fuel l bidId).map fun res => res.map fun l2 => .mk l2 b r
    else if b.bidId.data < bidId.data then
      (removeNodeFuel fuel r bidId).map fun res => res.map fun r2 => .mk l b r2
    else if l.isNull && r.isNull then some (some .nullptr)
    else if !l.isNull && r.isNull then some (some r)
    else if !r.isNull && l.isNull then some none
    else
      (removeNodeFuel fuel r (leftmost r).bidId).map fun res =>
        res.map fun r2 => .mk l (leftmost r) r2

/-- The number of nodes on the longest path from the node down to a leaf. -/
def height : Node → Nat
  | .nullptr => 0
  | .mk l _ r => max (height l) (height r) + 1

/-- No node of the tree has a left child. -/
def NoLeftChild : Node → Prop
  | .nullptr => True
  | .mk l _ r => l = .nullptr ∧ NoLeftChild r

instance NoLeftChild.decidable : (n : Node) → Decidable (NoLeftChild n)
  | .nullptr => isTrue trivial
  | .mk l _ r =>
    haveI := NoLeftChild.decidable r
    inferInstanceAs (Decidable (l = .nullptr ∧ NoLeftChild r))

/-- The ordering with ties on the right only, the one `addBid` builds: at every node the
ids of the left subtree are less than the id of the node, those of the right subtree
greater or equal. -/
def TiesRightOrdered : Node → Prop
  | .nullptr => True
  | .mk l b r =>
    (∀ x ∈ inBidOrder l, idLt x b) ∧ (∀ x ∈ inBidOrder r, idLe b x) ∧
      TiesRightOrdered l ∧ TiesRightOrdered r

instance TiesRightOrdered.decidable : (n : Node) → Decidable (TiesRightOrdered n)
  | .nullptr => isTrue trivial
  | .mk l b r =>
    haveI := TiesRightOrdered.decidable l
    haveI := TiesRightOrdered.decidable r
    inferInstanceAs (Decidable ((∀ x ∈ inBidOrder l, idLt x b) ∧
      (∀ x ∈ inBidOrder r, idLe b x) ∧ TiesRightOrdered l ∧ TiesRightOrdered r))

/-- The bids of the `Insert` calls of a sequence of calls, in order. -/
def insertedBids : List Op → List Bid
  | [] => []
  | .insert bid :: ops => bid :: insertedBids ops
  | .remove _ :: ops => insertedBids ops

/-- The tree in which the bids of a list hang on one chain of right links, the first bid
at the top. -/
def rightSpine : List Bid → Node
  | [] => .nullptr
  | b :: bs => .mk .nullptr b (rightSpine bs)

/-- The nested call `removeNode(node->bidRight, temp->bid.bidId)` of the two-children
branch, for the right subtree `r`, matches a node without a left child that carries the
bid at which the loop for the leftmost node stopped. -/
def matchesLeftmost (r : Node) : Bool :=
  match findNode r (leftmost r).bidId with
  | .nullptr => false
  | .mk l b _ => l.isNull && decide (b = leftmost r)

/-- A bid with a negative amount. -/
def negBid : Bid := { bidId := "A1", amount := -5 }

/-- The state after the three sample bids are inserted and `"C3"`, a leaf below the root,
is removed: the key tree holds `"A1"` and `"B2"`, the amount tree all three bids. -/
def sampleWithoutC3 : BinarySearchTree :=
  { root := .mk .nullptr { bidId := "A1", amount := 500 } (Node.new { bidId := "B2", amount := 300 })
    amountRoot := (insertAll sampleBids).amountRoot }

/-- Four bids in strictly ascending order of id. -/
def ascendingBids : List Bid :=
  [{ bidId := "A" }, { bidId := "B" }, { bidId := "C" }, { bidId := "D" }]

/-! ## Insertion keeps both listings sorted -/

theorem Node.isNull_eq_true {n : Node} : n.isNull = true ↔ n = .nullptr := by
  cases n <;> simp [Node.isNull]

theorem insertKey_nullptr (bid : Bid) : insertKey .nullptr bid = Node.new bid := rfl

theorem insertKey_mk (l : Node) (b : Bid) (r : Node) (bid : Bid) :
    insertKey (.mk l b r) bid =
      if bid.bidId.data < b.bidId.data then .mk (insertKey l bid) b r
      else .mk l b (insertKey r bid) := by
  simp only [insertKey, Node.isNull, addBid]
  split_ifs <;> simp_all

theorem insertAmount_nullptr (bid : Bid) : insertAmount .nullptr bid = Node.new bid := rfl

theorem insertAmount_mk (l : Node) (b : Bid) (r : Node) (bid : Bid) :
    insertAmount (.mk l b r) bid =
      if bid.amount < b.amount then .mk (insertAmount l bid) b r
      else .mk l b (insertAmount r bid) := by
  simp only [insertAmount, Node.isNull, addAmountNode, gt_iff_lt]
  split_ifs <;> simp_all

theorem Insert_root (t : BinarySearchTree) (bid : Bid) :
    (Insert t bid).root = insertKey t.root bid := rfl

theorem Insert_amountRoot (t : BinarySearchTree) (bid : Bid) :
    (Insert t bid).amountRoot = insertAmount t.amountRoot bid := rfl

theorem inBidOrder_insertKey_perm (n : Node) (bid : Bid) :
    (inBidOrder (insertKey n bid)).Perm (bid :: inBidOrder n) := by
  induction n with
  | nullptr => simp [insertKey_nullptr, Node.new, inBidOrder]
  | mk l b r ihl ihr =>
    rw [insertKey_mk]
    split_ifs
    · simpa [inBidOrder] using ihl.append_right (b :: inBidOrder r)
    · have h := (ihr.cons b).trans (List.Perm.swap bid b (inBidOrder r))
      exact (h.append_left (inBidOrder l)).trans List.perm_middle

theorem inAmountOrder_insertAmount_perm (n : Node) (bid : Bid) :
    (inAmountOrder (insertAmount n bid)).Perm (bid :: inAmountOrder n) := by
  induction n with
  | nullptr => simp [insertAmount_nullptr, Node.new, inAmountOrder]
  | mk l b r ihl ihr =>
    rw [insertAmount_mk]
    split_ifs
    · simpa [inAmountOrder] using ihl.append_right (b :: inAmountOrder r)
    · have h := (ihr.cons b).trans (List.Perm.swap bid b (inAmountOrder r))
      exact (h.append_left (inAmountOrder l)).trans List.perm_middle

theorem mem_inBidOrder_insertKey {n : Node} {bid y : Bid} :
    y ∈ inBidOrder (insertKey n bid) ↔ y = bid ∨ y ∈ inBidOrder n := by
  rw [(inBidOrder_insertKey_perm n bid).mem_iff, List.mem_cons]

theorem mem_inAmountOrder_insertAmount {n : Node} {bid y : Bid} :
    y ∈ inAmountOrder (insertAmount n bid) ↔ y = bid ∨ y ∈ inAmountOrder n := by
  rw [(inAmountOrder_insertAmount_perm n bid).mem_iff, List.mem_cons]

theorem inBidOrder_insertKey_sorted (n : Node) (bid : Bid)
    (h : (inBidOrder n).Pairwise idLe) : (inBidOrder (insertKey n bid)).Pairwise idLe := by
  induction n with
  | nullptr => simp [insertKey_nullptr, Node.new, inBidOrder]
  | mk l b r ihl ihr =>
    simp only [inBidOrder, List.pairwise_append, List.pairwise_cons, List.mem_cons] at h
    obtain ⟨hl, ⟨hbr, hr⟩, hlr⟩ := h
    rw [insertKey_mk]
    split_ifs with hlt
    · simp only [inBidOrder, List.pairwise_append, List.pairwise_cons, List.mem_cons]
      refine ⟨ihl hl, ⟨hbr, hr⟩, ?_⟩
      intro x hx y hy
      rcases mem_inBidOrder_insertKey.mp hx with rfl | hx
      · rcases hy with rfl | hy
        · exact le_of_lt hlt
        · exact le_trans (le_of_lt hlt) (hbr y hy)
      · exact hlr x hx y hy
    · simp only [inBidOrder, List.pairwise_append, List.pairwise_cons, List.mem_cons]
      refine ⟨hl, ⟨?_, ihr hr⟩, ?_⟩
      · intro y hy
        rcases mem_inBidOrder_insertKey.mp hy with rfl | hy
        · exact not_lt.mp hlt
        · exact hbr y hy
      · intro x hx y hy
        rcases hy with rfl | hy
        · exact hlr x hx y (Or.inl rfl)
        · rcases mem_inBidOrder_insertKey.mp hy with rfl | hy
          · exact le_trans (hlr x hx b (Or.inl rfl)) (not_lt.mp hlt)
          · exact hlr x hx y (Or.inr hy)

theorem inAmountOrder_insertAmount_sorted (n : Node) (bid : Bid)
    (h : (inAmountOrder n).Pairwise amountLe) :
    (inAmountOrder (insertAmount n bid)).Pairwise amountLe := by
  induction n with
  | nullptr => simp [insertAmount_nullptr, Node.new, inAmountOrder]
  | mk l b r ihl ihr =>
    simp only [inAmountOrder, List.pairwise_append, List.pairwise_cons, List.mem_cons] at h
    obtain ⟨hl, ⟨hbr, hr⟩, hlr⟩ := h
    rw [insertAmount_mk]
    split_ifs with hlt
    · simp only [inAmountOrder, List.pairwise_append, List.pairwise_cons, List.mem_cons]
      refine ⟨ihl hl, ⟨hbr, hr⟩, ?_⟩
      intro x hx y hy
      rcases mem_inAmountOrder_insertAmount.mp hx with rfl | hx
      · rcases hy with rfl | hy
        · exact le_of_lt hlt
        · exact le_trans (le_of_lt hlt) (hbr y hy)
      · exact hlr x hx y hy
    · simp only [inAmountOrder, List.pairwise_append, List.pairwise_cons, List.mem_cons]
      refine ⟨hl, ⟨?_, ihr hr⟩, ?_⟩
      · intro y hy
        rcases mem_inAmountOrder_insertAmount.mp hy with rfl | hy
        · exact not_lt.mp hlt
        · exact hbr y hy
      · intro x hx y hy
        rcases hy with rfl | hy
        · exact hlr x hx y (Or.inl rfl)
        · rcases mem_inAmountOrder_insertAmount.mp hy with rfl | hy
          · exact le_trans (hlr x hx b (Or.inl rfl)) (not_lt.mp hlt)
          · exact hlr x hx y (Or.inr hy)

/-- Inserting a sequence of bids into any state whose key listing is sorted keeps it
sorted, and the listing afterwards is a rearrangement of the new bids and the old ones. -/
theorem foldl_Insert_key (bids : List Bid) (t : BinarySearchTree)
    (h : (InBidOrder t).Pairwise idLe) :
    (InBidOrder (bids.foldl Insert t)).Pairwise idLe ∧
      (InBidOrder (bids.foldl Insert t)).Perm (bids.reverse ++ InBidOrder t) := by
  induction bids generalizing t with
  | nil => exact ⟨h, by simp⟩
  | cons b bs ih =>
    have hs : (InBidOrder (Insert t b)).Pairwise idLe :=
      inBidOrder_insertKey_sorted t.root b h
    obtain ⟨h1, h2⟩ := ih (Insert t b) hs
    refine ⟨h1, h2.trans ?_⟩
    have hp : (InBidOrder (Insert t b)).Perm (b :: InBidOrder t) :=
      inBidOrder_insertKey_perm t.root b
    simpa using hp.append_left bs.reverse

/-- Inserting a sequence of bids into any state whose amount listing is sorted keeps it
sorted, and the listing afterwards is a rearrangement of the new bids and the old ones. -/
theorem foldl_Insert_amount (bids : List Bid) (t : BinarySearchTree)
    (h : (InAmountOrder t).Pairwise amountLe) :
    (InAmountOrder (bids.foldl Insert t)).Pairwise amountLe ∧
      (InAmountOrder (bids.foldl Insert t)).Perm (bids.reverse ++ InAmountOrder t) := by
  induction bids generalizing t with
  | nil => exact ⟨h, by simp⟩
  | cons b bs ih =>
    have hs : (InAmountOrder (Insert t b)).Pairwise amountLe :=
      inAmountOrder_insertAmount_sorted t.amountRoot b h
    obtain ⟨h1, h2⟩ := ih (Insert t b) hs
    refine ⟨h1, h2.trans ?_⟩
    have hp : (InAmountOrder (Insert t b)).Perm (b :: InAmountOrder t) :=
      inAmountOrder_insertAmount_perm t.amountRoot b
    simpa using hp.append_left bs.reverse

theorem InBidOrder_insertAll_perm (bids : List Bid) :
    (InBidOrder (insertAll bids)).Perm bids := by
  have h := (foldl_Insert_key bids BinarySearchTree.empty (by simp [InBidOrder,
    BinarySearchTree.empty, inBidOrder])).2
  have e : bids.reverse ++ InBidOrder BinarySearchTree.empty = bids.reverse := by
    simp [InBidOrder, BinarySearchTree.empty, inBidOrder]
  rw [e] at h
  exact h.trans (List.reverse_perm bids)

theorem InAmountOrder_insertAll_perm (bids : List Bid) :
    (InAmountOrder (insertAll bids)).Perm bids := by
  have h := (foldl_Insert_amount bids BinarySearchTree.empty (by simp [InAmountOrder,
    BinarySearchTree.empty, inAmountOrder])).2
  have e : bids.reverse ++ InAmountOrder BinarySearchTree.empty = bids.reverse := by
    simp [InAmountOrder, BinarySearchTree.empty, inAmountOrder]
  rw [e] at h
  exact h.trans (List.reverse_perm bids)

theorem InAmountOrder_insertAll_sorted (bids : List Bid) :
    (InAmountOrder (insertAll bids)).Pairwise amountLe :=
  (foldl_Insert_amount bids BinarySearchTree.empty (by simp [InAmountOrder,
    BinarySearchTree.empty, inAmountOrder])).1

theorem InBidOrder_insertAll_sorted (bids : List Bid) :
    (InBidOrder (insertAll bids)).Pairwise idLe :=
  (foldl_Insert_key bids BinarySearchTree.empty (by simp [InBidOrder,
    BinarySearchTree.empty, inBidOrder])).1

theorem amountSearch_eq_filter (n : Node) (low high : ℚ) :
    amountSearch n low high = (inAmountOrder n).filter (inRange low high) := by
  induction n with
  | nullptr => rfl
  | mk l b r ihl ihr =>
    simp only [amountSearch, inAmountOrder, List.filter_append, List.filter_cons, ihl, ihr,
      inRange, ge_iff_le, decide_eq_true_eq]
    split_ifs <;> simp

/-! ## Removal from the key tree -/

theorem Node.isNull_eq_false {n : Node} :
    n.isNull = false ↔ ∃ l b r, n = .mk l b r := by
  cases n <;> simp [Node.isNull]

theorem id_eq_of_not_lt {a b : String} (h1 : ¬a.data < b.data)
    (h2 : ¬b.data < a.data) : a = b :=
  String.ext (le_antisymm (not_lt.mp h2) (not_lt.mp h1))

theorem id_ne_of_lt {a b : String} (h : a.data < b.data) : a ≠ b := by
  rintro rfl
  exact lt_irrefl _ h

theorem keyOrdered_sorted {n : Node} (h : KeyOrdered n) : (inBidOrder n).Pairwise idLe := by
  induction n with
  | nullptr => simp [inBidOrder]
  | mk l b r ihl ihr =>
    obtain ⟨hlb, hbr, hl, hr⟩ := h
    simp only [inBidOrder, List.pairwise_append, List.pairwise_cons, List.mem_cons]
    refine ⟨ihl hl, ⟨hbr, ihr hr⟩, ?_⟩
    intro x hx y hy
    rcases hy with rfl | hy
    · exact hlb x hx
    · exact le_trans (hlb x hx) (hbr y hy)

theorem sorted_keyOrdered {n : Node} (h : (inBidOrder n).Pairwise idLe) : KeyOrdered n := by
  induction n with
  | nullptr => trivial
  | mk l b r ihl ihr =>
    simp only [inBidOrder, List.pairwise_append, List.pairwise_cons, List.mem_cons] at h
    obtain ⟨hl, ⟨hbr, hr⟩, hlr⟩ := h
    exact ⟨fun x hx => hlr x hx b (Or.inl rfl), hbr, ihl hl, ihr hr⟩

/-- In an ordered key tree with distinct ids the listing is strictly increasing. -/
theorem strictly_sorted {n : Node} (ho : KeyOrdered n) (hd : DistinctIds n) :
    (inBidOrder n).Pairwise idLt := by
  have hne : (inBidOrder n).Pairwise (fun a b => a.bidId ≠ b.bidId) :=
    List.pairwise_map.mp hd
  refine ((keyOrdered_sorted ho).and hne).imp ?_
  intro a b hab
  exact lt_of_le_of_ne hab.1 (fun e => hab.2 (String.ext e))

theorem strictly_sorted_mk {l r : Node} {b : Bid}
    (h : (inBidOrder (.mk l b r)).Pairwise idLt) :
    (inBidOrder l).Pairwise idLt ∧ (inBidOrder r).Pairwise idLt ∧
      (∀ x ∈ inBidOrder l, idLt x b) ∧ (∀ x ∈ inBidOrder r, idLt b x) := by
  simp only [inBidOrder, List.pairwise_append, List.pairwise_cons, List.mem_cons] at h
  obtain ⟨hl, ⟨hbr, hr⟩, hlr⟩ := h
  exact ⟨hl, hr, fun x hx => hlr x hx b (Or.inl rfl), hbr⟩

theorem leftmost_mk_of_not_null {l r : Node} {b : Bid} (hl : l.isNull = false) :
    leftmost (.mk l b r) = leftmost l := by
  simp [leftmost, hl]

/-- The loop for the leftmost node stops at the first bid of the listing. -/
theorem inBidOrder_eq_leftmost_cons {n : Node} (h : n.isNull = false) :
    inBidOrder n = leftmost n :: (inBidOrder n).tail := by
  induction n with
  | nullptr => simp [Node.isNull] at h
  | mk l b r ihl _ =>
    cases hl : l.isNull with
    | true =>
      rw [Node.isNull_eq_true] at hl
      subst hl
      simp [inBidOrder, leftmost, Node.isNull]
    | false =>
      have e := ihl hl
      simp only [leftmost, hl, inBidOrder]
      rw [e]
      simp

theorem leftmost_mem {n : Node} (h : n.isNull = false) : leftmost n ∈ inBidOrder n := by
  rw [inBidOrder_eq_leftmost_cons h]
  exact List.mem_cons_self _ _

theorem inBidOrder_findNode_subset {n : Node} {bidId : String} {x : Bid}
    (h : x ∈ inBidOrder (findNode n bidId)) : x ∈ inBidOrder n := by
  induction n with
  | nullptr => simp [findNode, inBidOrder] at h
  | mk l b r ihl ihr =>
    simp only [findNode] at h
    simp only [inBidOrder, List.mem_append, List.mem_cons]
    split_ifs at h
    · exact Or.inl (ihl h)
    · exact Or.inr (Or.inr (ihr h))
    · simpa [inBidOrder] using h

theorem inBidOrder_findNode_sublist (n : Node) (bidId : String) :
    (inBidOrder (findNode n bidId)).Sublist (inBidOrder n) := by
  induction n with
  | nullptr => simp [findNode, inBidOrder]
  | mk l b r ihl ihr =>
    simp only [findNode]
    split_ifs
    · exact ihl.trans (List.sublist_append_left _ _)
    · exact (ihr.trans (List.sublist_cons_self b _)).trans (List.sublist_append_right _ _)
    · exact List.Sublist.refl _

theorem findNode_bidId {n l r : Node} {b : Bid} {bidId : String}
    (h : findNode n bidId = .mk l b r) : b.bidId = bidId := by
  induction n with
  | nullptr => simp [findNode] at h
  | mk L B R ihl ihr =>
    simp only [findNode] at h
    split_ifs at h with h1 h2
    · exact ihl h
    · exact ihr h
    · injection h with _ hb _
      subst hb
      exact (id_eq_of_not_lt h1 h2).symm

theorem filter_id_ne_eq_self {xs : List Bid} {bidId : String}
    (h : ∀ x ∈ xs, x.bidId ≠ bidId) :
    xs.filter (fun x => decide (x.bidId ≠ bidId)) = xs := by
  rw [List.filter_eq_self]
  intro x hx
  simpa using h x hx

/-- The lookup finds nothing for an id that no bid of the tree carries. -/
theorem bidSearchFrom_of_absent {n : Node} {bidId : String}
    (h : ∀ x ∈ inBidOrder n, x.bidId ≠ bidId) : bidSearchFrom n bidId = {} := by
  induction n with
  | nullptr => rfl
  | mk l b r ihl ihr =>
    simp only [inBidOrder, List.mem_append, List.mem_cons] at h
    simp only [bidSearchFrom, if_neg (h b (Or.inr (Or.inl rfl)))]
    split_ifs
    · exact ihl fun x hx => h x (Or.inl hx)
    · exact ihr fun x hx => h x (Or.inr (Or.inr hx))

/-- In an ordered tree the bid where the loop for the leftmost node stops is below or
equal to every bid of the tree. -/
theorem leftmost_le_of_keyOrdered {n : Node} (h : KeyOrdered n) (hn : n.isNull = false)
    {y : Bid} (hy : y ∈ inBidOrder n) : idLe (leftmost n) y := by
  have hs := keyOrdered_sorted h
  rw [inBidOrder_eq_leftmost_cons hn] at hs hy
  rcases List.mem_cons.mp hy with rfl | hy
  · exact le_refl _
  · exact (List.pairwise_cons.mp hs).1 y hy

theorem tiesRight_keyOrdered {n : Node} (h : TiesRightOrdered n) : KeyOrdered n := by
  induction n with
  | nullptr => trivial
  | mk l b r ihl ihr =>
    obtain ⟨hlb, hbr, hl, hr⟩ := h
    exact ⟨fun x hx => le_of_lt (hlb x hx), hbr, ihl hl, ihr hr⟩

/-- With ties on the right only, the descent for the id of the leftmost node ends at the
leftmost node, which has no left child. -/
theorem matchesLeftmost_of_tiesRight {n : Node} (h : n.isNull = false)
    (ho : TiesRightOrdered n) : matchesLeftmost n = true := by
  induction n with
  | nullptr => simp [Node.isNull] at h
  | mk l b r ihl _ =>
    obtain ⟨hlb, _, hol, _⟩ := ho
    cases hl : l.isNull with
    | true =>
      rw [Node.isNull_eq_true] at hl
      subst hl
      simp [matchesLeftmost, leftmost, findNode, Node.isNull]
    | false =>
      have hlt : (leftmost l).bidId.data < b.bidId.data := hlb _ (leftmost_mem hl)
      have ih := ihl hl hol
      unfold matchesLeftmost at ih ⊢
      rw [leftmost_mk_of_not_null hl]
      simp only [findNode, if_pos hlt]
      exact ih

theorem tiesRight_findNode {n : Node} (ho : TiesRightOrdered n) (bidId : String) :
    TiesRightOrdered (findNode n bidId) := by
  induction n with
  | nullptr => trivial
  | mk l b r ihl ihr =>
    have ho0 := ho
    obtain ⟨_, _, hol, hor⟩ := ho
    simp only [findNode]
    split_ifs
    · exact ihl hol
    · exact ihr hor
    · exact ho0

theorem tiesRight_insertKey {n : Node} (ho : TiesRightOrdered n) (bid : Bid) :
    TiesRightOrdered (insertKey n bid) := by
  induction n with
  | nullptr =>
    rw [insertKey_nullptr]
    exact ⟨by simp [inBidOrder], by simp [inBidOrder], trivial, trivial⟩
  | mk l b r ihl ihr =>
    obtain ⟨hlb, hbr, hol, hor⟩ := ho
    rw [insertKey_mk]
    split_ifs with hlt
    · refine ⟨?_, hbr, ihl hol, hor⟩
      intro x hx
      rcases mem_inBidOrder_insertKey.mp hx with rfl | hx
      · exact hlt
      · exact hlb x hx
    · refine ⟨hlb, ?_, hol, ihr hor⟩
      intro x hx
      rcases mem_inBidOrder_insertKey.mp hx with rfl | hx
      · exact not_lt.mp hlt
      · exact hbr x hx

theorem tiesRight_of_strictly_sorted {n : Node} (h : (inBidOrder n).Pairwise idLt) :
    TiesRightOrdered n := by
  induction n with
  | nullptr => trivial
  | mk l b r ihl ihr =>
    obtain ⟨hl, hr, hlb, hbr⟩ := strictly_sorted_mk h
    exact ⟨hlb, fun x hx => le_of_lt (hbr x hx), ihl hl, ihr hr⟩

theorem removeNode_of_lt {l r : Node} {b : Bid} {bidId : String}
    (h : bidId.data < b.bidId.data) :
    removeNode (.mk l b r) bidId = (removeNode l bidId).map fun l2 => .mk l2 b r := by
  simp only [removeNode, if_pos h]

theorem removeNode_of_gt {l r : Node} {b : Bid} {bidId : String}
    (h : b.bidId.data < bidId.data) :
    removeNode (.mk l b r) bidId = (removeNode r bidId).map fun r2 => .mk l b r2 := by
  simp only [removeNode, if_neg (not_lt_of_gt h), if_pos h]

/-- The ways in which `removeNode` on a node returns a well-formed tree: it went into the
left subtree, or into the right subtree, or it matched a node without a right child and
returned null, or it matched a node with two children. -/
theorem removeNode_mk_eq_some {l r n2 : Node} {b : Bid} {bidId : String}
    (h : removeNode (.mk l b r) bidId = some n2) :
    (bidId.data < b.bidId.data ∧ ∃ l2, removeNode l bidId = some l2 ∧ n2 = .mk l2 b r) ∨
      (b.bidId.data < bidId.data ∧ ∃ r2, removeNode r bidId = some r2 ∧ n2 = .mk l b r2) ∨
      (b.bidId = bidId ∧ r = .nullptr ∧ n2 = .nullptr) ∨
      (b.bidId = bidId ∧ l.isNull = false ∧ r.isNull = false ∧
        ∃ r2, removeNode r (leftmost r).bidId = some r2 ∧ n2 = .mk l (leftmost r) r2) := by
  simp only [removeNode] at h
  split_ifs at h with h1 h2 h3 h4 h5
  · obtain ⟨l2, hl2, e⟩ := Option.map_eq_some'.mp h
    exact Or.inl ⟨h1, l2, hl2, e.symm⟩
  · obtain ⟨r2, hr2, e⟩ := Option.map_eq_some'.mp h
    exact Or.inr (Or.inl ⟨h2, r2, hr2, e.symm⟩)
  · have hr : r = .nullptr := Node.isNull_eq_true.mp (by simp_all)
    exact Or.inr (Or.inr (Or.inl ⟨(id_eq_of_not_lt h1 h2).symm, hr,
      (Option.some.inj h).symm⟩))
  · have hr : r = .nullptr := Node.isNull_eq_true.mp (by simp_all)
    exact Or.inr (Or.inr (Or.inl ⟨(id_eq_of_not_lt h1 h2).symm, hr,
      hr ▸ (Option.some.inj h).symm⟩))
  · have hl : l.isNull = false := by
      cases hl : l.isNull <;> cases hr : r.isNull <;> simp_all
    have hr : r.isNull = false := by
      cases hl : l.isNull <;> cases hr : r.isNull <;> simp_all
    obtain ⟨r2, hr2, e⟩ := Option.map_eq_some'.mp h
    exact Or.inr (Or.inr (Or.inr ⟨(id_eq_of_not_lt h1 h2).symm, hl, hr, r2, hr2, e.symm⟩))

/-- The ways in which the pointer kept by the caller of `removeNode` still points to a
well-formed tree: the call went into the left or the right subtree, or it matched the
node and the node has two children. -/
theorem removeNodeInPlace_mk_eq_some {l r n2 : Node} {b : Bid} {bidId : String}
    (h : removeNodeInPlace (.mk l b r) bidId = some n2) :
    (bidId.data < b.bidId.data ∧ ∃ l2, removeNode l bidId = some l2 ∧ n2 = .mk l2 b r) ∨
      (b.bidId.data < bidId.data ∧ ∃ r2, removeNode r bidId = some r2 ∧ n2 = .mk l b r2) ∨
      (b.bidId = bidId ∧ l.isNull = false ∧ r.isNull = false ∧
        ∃ r2, removeNode r (leftmost r).bidId = some r2 ∧ n2 = .mk l (leftmost r) r2) := by
  simp only [removeNodeInPlace] at h
  split_ifs at h with h1 h2 h3
  · obtain ⟨l2, hl2, e⟩ := Option.map_eq_some'.mp h
    exact Or.inl ⟨h1, l2, hl2, e.symm⟩
  · obtain ⟨r2, hr2, e⟩ := Option.map_eq_some'.mp h
    exact Or.inr (Or.inl ⟨h2, r2, hr2, e.symm⟩)
  · have hl : l.isNull = false := by
      cases hl : l.isNull <;> cases hr : r.isNull <;> simp_all
    have hr : r.isNull = false := by
      cases hl : l.isNull <;> cases hr : r.isNull <;> simp_all
    obtain ⟨r2, hr2, e⟩ := Option.map_eq_some'.mp h
    exact Or.inr (Or.inr ⟨(id_eq_of_not_lt h1 h2).symm, hl, hr, r2, hr2, e.symm⟩)

/-- A call of `removeNode` on a node that returns a well-formed tree gives the same tree
under the pointer kept by the caller, unless it matched a node without a right child. -/
theorem removeNodeInPlace_eq_some_removeNode {l r n2 : Node} {b : Bid} {bidId : String}
    (h : removeNodeInPlace (.mk l b r) bidId = some n2) :
    removeNode (.mk l b r) bidId = some n2 := by
  rcases removeNodeInPlace_mk_eq_some h with ⟨h1, l2, hl2, rfl⟩ | ⟨h2, r2, hr2, rfl⟩ |
    ⟨hb, hl, hr, r2, hr2, rfl⟩
  · rw [removeNode_of_lt h1, hl2]
    rfl
  · rw [removeNode_of_gt h2, hr2]
    rfl
  · subst hb
    simp [removeNode, hl, hr, hr2]

/-- Every bid listed after `removeNode` was listed before. -/
theorem mem_inBidOrder_removeNode {n n2 : Node} {bidId : String} {x : Bid}
    (h : removeNode n bidId = some n2) (hx : x ∈ inBidOrder n2) : x ∈ inBidOrder n := by
  induction n generalizing n2 bidId with
  | nullptr =>
    cases h
    simp [inBidOrder] at hx
  | mk l b r ihl ihr =>
    simp only [inBidOrder, List.mem_append, List.mem_cons]
    rcases removeNode_mk_eq_some h with ⟨_, l2, hl2, rfl⟩ | ⟨_, r2, hr2, rfl⟩ |
      ⟨_, _, rfl⟩ | ⟨_, _, hr, r2, hr2, rfl⟩
    · simp only [inBidOrder, List.mem_append, List.mem_cons] at hx
      rcases hx with hx | hx | hx
      · exact Or.inl (ihl hl2 hx)
      · exact Or.inr (Or.inl hx)
      · exact Or.inr (Or.inr hx)
    · simp only [inBidOrder, List.mem_append, List.mem_cons] at hx
      rcases hx with hx | hx | hx
      · exact Or.inl hx
      · exact Or.inr (Or.inl hx)
      · exact Or.inr (Or.inr (ihr hr2 hx))
    · simp [inBidOrder] at hx
    · simp only [inBidOrder, List.mem_append, List.mem_cons] at hx
      rcases hx with hx | hx | hx
      · exact Or.inl hx
      · exact Or.inr (Or.inr (hx ▸ leftmost_mem hr))
      · exact Or.inr (Or.inr (ihr hr2 hx))

theorem mem_inBidOrder_removeNodeInPlace {n n2 : Node} {bidId : String} {x : Bid}
    (h : removeNodeInPlace n bidId = some n2) (hx : x ∈ inBidOrder n2) :
    x ∈ inBidOrder n := by
  cases n with
  | nullptr =>
    cases h
    simp [inBidOrder] at hx
  | mk l b r => exact mem_inBidOrder_removeNode (removeNodeInPlace_eq_some_removeNode h) hx

/-- In a strictly ordered tree no bid listed after `removeNode` carries the removed id. -/
theorem id_ne_of_mem_removeNode {n n2 : Node} (hs : (inBidOrder n).Pairwise idLt)
    {bidId : String} {x : Bid} (h : removeNode n bidId = some n2)
    (hx : x ∈ inBidOrder n2) : x.bidId ≠ bidId := by
  induction n generalizing n2 with
  | nullptr =>
    cases h
    simp [inBidOrder] at hx
  | mk l b r ihl ihr =>
    obtain ⟨hsl, hsr, hlb, hbr⟩ := strictly_sorted_mk hs
    rcases removeNode_mk_eq_some h with ⟨h1, l2, hl2, rfl⟩ | ⟨h2, r2, hr2, rfl⟩ |
      ⟨_, _, rfl⟩ | ⟨hb, _, hr, r2, hr2, rfl⟩
    · simp only [inBidOrder, List.mem_append, List.mem_cons] at hx
      rcases hx with hx | hx | hx
      · exact ihl hsl hl2 hx
      · exact hx ▸ (id_ne_of_lt h1).symm
      · exact (id_ne_of_lt (lt_trans h1 (hbr x hx))).symm
    · simp only [inBidOrder, List.mem_append, List.mem_cons] at hx
      rcases hx with hx | hx | hx
      · exact id_ne_of_lt (lt_trans (hlb x hx) h2)
      · exact hx ▸ id_ne_of_lt h2
      · exact ihr hsr hr2 hx
    · simp [inBidOrder] at hx
    · simp only [inBidOrder, List.mem_append, List.mem_cons] at hx
      rcases hx with hx | hx | hx
      · exact hb ▸ id_ne_of_lt (hlb x hx)
      · exact hb ▸ hx ▸ (id_ne_of_lt (hbr _ (leftmost_mem hr))).symm
      · exact hb ▸ (id_ne_of_lt (hbr x (mem_inBidOrder_removeNode hr2 hx))).symm

theorem id_ne_of_mem_removeNodeInPlace {n n2 : Node} (hs : (inBidOrder n).Pairwise idLt)
    {bidId : String} {x : Bid} (h : removeNodeInPlace n bidId = some n2)
    (hx : x ∈ inBidOrder n2) : x.bidId ≠ bidId := by
  cases n with
  | nullptr =>
    cases h
    simp [inBidOrder] at hx
  | mk l b r => exact id_ne_of_mem_removeNode hs (removeNodeInPlace_eq_some_removeNode h) hx

theorem removeNode_of_absent {n : Node} {bidId : String}
    (h : ∀ x ∈ inBidOrder n, x.bidId ≠ bidId) : removeNode n bidId = some n := by
  induction n with
  | nullptr => rfl
  | mk l b r ihl ihr =>
    simp only [inBidOrder, List.mem_append, List.mem_cons] at h
    have hl : removeNode l bidId = some l := ihl fun x hx => h x (Or.inl hx)
    have hr : removeNode r bidId = some r := ihr fun x hx => h x (Or.inr (Or.inr hx))
    have hb : b.bidId ≠ bidId := h b (Or.inr (Or.inl rfl))
    by_cases h1 : bidId.data < b.bidId.data
    · rw [removeNode_of_lt h1, hl]
      rfl
    · by_cases h2 : b.bidId.data < bidId.data
      · rw [removeNode_of_gt h2, hr]
        rfl
      · exact absurd (id_eq_of_not_lt h1 h2).symm hb

theorem removeNodeInPlace_of_absent {n : Node} {bidId : String}
    (h : ∀ x ∈ inBidOrder n, x.bidId ≠ bidId) : removeNodeInPlace n bidId = some n := by
  cases n with
  | nullptr => rfl
  | mk l b r =>
    simp only [inBidOrder, List.mem_append, List.mem_cons] at h
    have hl : removeNode l bidId = some l :=
      removeNode_of_absent fun x hx => h x (Or.inl hx)
    have hr : removeNode r bidId = some r :=
      removeNode_of_absent fun x hx => h x (Or.inr (Or.inr hx))
    have hb : b.bidId ≠ bidId := h b (Or.inr (Or.inl rfl))
    by_cases h1 : bidId.data < b.bidId.data
    · simp only [removeNodeInPlace, if_pos h1, hl]
      rfl
    · by_cases h2 : b.bidId.data < bidId.data
      · simp only [removeNodeInPlace, if_neg h1, if_pos h2, hr]
        rfl
      · exact absurd (id_eq_of_not_lt h1 h2).symm hb

/-- With ties on the right only, a call for the id of the leftmost node that returns a
well-formed tree has dropped the first bid of the listing. -/
theorem inBidOrder_removeNode_leftmost_of_tiesRight {n n2 : Node} (hn : n.isNull = false)
    (ho : TiesRightOrdered n) (h : removeNode n (leftmost n).bidId = some n2) :
    inBidOrder n2 = (inBidOrder n).tail := by
  induction n generalizing n2 with
  | nullptr => simp [Node.isNull] at hn
  | mk l b r ihl _ =>
    obtain ⟨hlb, _, hol, _⟩ := ho
    cases hl : l.isNull with
    | true =>
      rw [Node.isNull_eq_true] at hl
      subst hl
      cases r with
      | nullptr =>
        simp only [leftmost, removeNode, Node.isNull, lt_irrefl, if_false, Bool.and_self,
          if_true] at h
        cases h
        simp [inBidOrder]
      | mk rl rb rr => simp [leftmost, removeNode, Node.isNull] at h
    | false =>
      have hlt : (leftmost l).bidId.data < b.bidId.data := hlb _ (leftmost_mem hl)
      have e := inBidOrder_eq_leftmost_cons hl
      rw [leftmost_mk_of_not_null hl, removeNode_of_lt hlt] at h
      obtain ⟨l2, hl2, rfl⟩ := Option.map_eq_some'.mp h
      simp only [inBidOrder, ihl hl hol hl2]
      rw [e]
      simp

/-- With ties on the right only, the listing after a call of `removeNode` that returns a
well-formed tree is a sublist of the listing before. -/
theorem inBidOrder_removeNode_sublist {n n2 : Node} (ho : TiesRightOrdered n)
    {bidId : String} (h : removeNode n bidId = some n2) :
    (inBidOrder n2).Sublist (inBidOrder n) := by
  induction n generalizing n2 bidId with
  | nullptr =>
    cases h
    exact List.Sublist.refl _
  | mk l b r ihl ihr =>
    obtain ⟨_, _, hol, hor⟩ := ho
    rcases removeNode_mk_eq_some h with ⟨_, l2, hl2, rfl⟩ | ⟨_, r2, hr2, rfl⟩ |
      ⟨_, _, rfl⟩ | ⟨_, _, hr, r2, hr2, rfl⟩
    · exact (ihl hol hl2).append (List.Sublist.refl _)
    · exact (List.Sublist.refl _).append ((ihr hor hr2).cons₂ b)
    · simp [inBidOrder]
    · simp only [inBidOrder, inBidOrder_removeNode_leftmost_of_tiesRight hr hor hr2]
      rw [← inBidOrder_eq_leftmost_cons hr]
      exact (List.Sublist.refl _).append (List.sublist_cons_self b _)

theorem keyOrdered_removeNode {n n2 : Node} (ho : KeyOrdered n) {bidId : String}
    (h : removeNode n bidId = some n2) : KeyOrdered n2 := by
  induction n generalizing n2 bidId with
  | nullptr =>
    cases h
    trivial
  | mk l b r ihl ihr =>
    obtain ⟨hlb, hbr, hl, hr⟩ := ho
    rcases removeNode_mk_eq_some h with ⟨_, l2, hl2, rfl⟩ | ⟨_, r2, hr2, rfl⟩ |
      ⟨_, _, rfl⟩ | ⟨_, _, hrn, r2, hr2, rfl⟩
    · exact ⟨fun x hx => hlb x (mem_inBidOrder_removeNode hl2 hx), hbr, ihl hl hl2, hr⟩
    · exact ⟨hlb, fun x hx => hbr x (mem_inBidOrder_removeNode hr2 hx), hl, ihr hr hr2⟩
    · trivial
    · refine ⟨fun x hx => le_trans (hlb x hx) (hbr _ (leftmost_mem hrn)), ?_, hl, ihr hr hr2⟩
      intro y hy
      exact leftmost_le_of_keyOrdered hr hrn (mem_inBidOrder_removeNode hr2 hy)

theorem keyOrdered_removeNodeInPlace {n n2 : Node} (ho : KeyOrdered n) {bidId : String}
    (h : removeNodeInPlace n bidId = some n2) : KeyOrdered n2 := by
  cases n with
  | nullptr =>
    cases h
    trivial
  | mk l b r => exact keyOrdered_removeNode ho (removeNodeInPlace_eq_some_removeNode h)

theorem tiesRight_removeNode {n n2 : Node} (ho : TiesRightOrdered n) {bidId : String}
    (h : removeNode n bidId = some n2) : TiesRightOrdered n2 := by
  induction n generalizing n2 bidId with
  | nullptr =>
    cases h
    trivial
  | mk l b r ihl ihr =>
    obtain ⟨hlb, hbr, hol, hor⟩ := ho
    rcases removeNode_mk_eq_some h with ⟨_, l2, hl2, rfl⟩ | ⟨_, r2, hr2, rfl⟩ |
      ⟨_, _, rfl⟩ | ⟨_, _, hrn, r2, hr2, rfl⟩
    · exact ⟨fun x hx => hlb x (mem_inBidOrder_removeNode hl2 hx), hbr, ihl hol hl2, hor⟩
    · exact ⟨hlb, fun x hx => hbr x (mem_inBidOrder_removeNode hr2 hx), hol, ihr hor hr2⟩
    · trivial
    · refine ⟨fun x hx => lt_of_lt_of_le (hlb x hx) (hbr _ (leftmost_mem hrn)), ?_, hol,
        ihr hor hr2⟩
      intro y hy
      exact leftmost_le_of_keyOrdered (tiesRight_keyOrdered hor) hrn
        (mem_inBidOrder_removeNode hr2 hy)

theorem tiesRight_removeNodeInPlace {n n2 : Node} (ho : TiesRightOrdered n)
    {bidId : String} (h : removeNodeInPlace n bidId = some n2) : TiesRightOrdered n2 := by
  cases n with
  | nullptr =>
    cases h
    trivial
  | mk l b r => exact tiesRight_removeNode ho (removeNodeInPlace_eq_some_removeNode h)

/-- Every well-formed key tree that `Insert` and `Remove` calls build from a tree ordered
with ties on the right only is ordered with ties on the right only. -/
theorem tiesRight_runOpsFrom (ops : List Op) (t s : BinarySearchTree)
    (ht : TiesRightOrdered t.root) (h : runOpsFrom t ops = some s) :
    TiesRightOrdered s.root := by
  induction ops generalizing t with
  | nil =>
    cases h
    exact ht
  | cons op ops ih =>
    simp only [runOpsFrom] at h
    obtain ⟨u, hu, hrest⟩ := Option.bind_eq_some.mp h
    refine ih u ?_ hrest
    cases op with
    | insert bid =>
      cases hu
      exact tiesRight_insertKey ht bid
    | remove bidId =>
      obtain ⟨n, hn, rfl⟩ := Option.map_eq_some'.mp hu
      exact tiesRight_removeNodeInPlace ht hn

/-- Every well-formed key tree that `Insert` and `Remove` calls build from the empty tree
is ordered with ties on the right only. -/
theorem tiesRight_runOps (ops : List Op) (s : BinarySearchTree) (h : runOps ops = some s) :
    TiesRightOrdered s.root :=
  tiesRight_runOpsFrom ops BinarySearchTree.empty s trivial h

/-- With a bound above the height of the tree the bounded recursion returns, and it
returns what `removeNode` returns. -/
theorem removeNodeFuel_eq (n : Node) (bidId : String) (fuel : Nat) (h : height n < fuel) :
    removeNodeFuel fuel n bidId = some (removeNode n bidId) := by
  induction n generalizing fuel bidId with
  | nullptr =>
    cases fuel with
    | zero => exact absurd h (Nat.not_lt_zero _)
    | succ k => rfl
  | mk l b r ihl ihr =>
    cases fuel with
    | zero => exact absurd h (Nat.not_lt_zero _)
    | succ k =>
      simp only [height] at h
      have hl : height l < k := by omega
      have hr : height r < k := by omega
      simp only [removeNodeFuel, removeNode, ihl _ k hl, ihr _ k hr, Option.map_some']
      split_ifs <;> rfl

/-- Where `removeNode` for an id whose node has two children returns a well-formed tree,
in a strictly ordered tree, the listing afterwards is the listing before with the bid of
that id deleted and nothing else changed. -/
theorem inBidOrder_removeNode_of_two_children {n n2 : Node}
    (hs : (inBidOrder n).Pairwise idLt) {bidId : String} {l r : Node} {b : Bid}
    (hfind : findNode n bidId = .mk l b r) (hr : r.isNull = false)
    (h : removeNode n bidId = some n2) :
    inBidOrder n2 = (inBidOrder n).filter (fun x => decide (x.bidId ≠ bidId)) := by
  induction n generalizing n2 with
  | nullptr => simp [findNode] at hfind
  | mk L B R ihl ihr =>
    obtain ⟨hsl, hsr, hlb, hbr⟩ := strictly_sorted_mk hs
    rcases removeNode_mk_eq_some h with ⟨h1, l2, hl2, rfl⟩ | ⟨h2, r2, hr2, rfl⟩ |
      ⟨hB, hR, rfl⟩ | ⟨hB, _, hRn, r2, hr2, rfl⟩
    · have hB : B.bidId ≠ bidId := (id_ne_of_lt h1).symm
      have hR : ∀ x ∈ inBidOrder R, x.bidId ≠ bidId := fun x hx =>
        (id_ne_of_lt (lt_trans h1 (hbr x hx))).symm
      simp only [findNode, if_pos h1] at hfind
      simp only [inBidOrder, List.filter_append, List.filter_cons,
        ihl hsl hfind hl2, filter_id_ne_eq_self hR]
      simp [hB]
    · have hB : B.bidId ≠ bidId := id_ne_of_lt h2
      have hL : ∀ x ∈ inBidOrder L, x.bidId ≠ bidId := fun x hx =>
        id_ne_of_lt (lt_trans (hlb x hx) h2)
      simp only [findNode, if_neg (not_lt_of_gt h2), if_pos h2] at hfind
      simp only [inBidOrder, List.filter_append, List.filter_cons,
        ihr hsr hfind hr2, filter_id_ne_eq_self hL]
      simp [hB]
    · subst hB
      simp only [findNode, lt_irrefl, if_false] at hfind
      injection hfind with _ _ e3
      subst e3
      subst hR
      simp [Node.isNull] at hr
    · subst hB
      have hL : ∀ x ∈ inBidOrder L, x.bidId ≠ B.bidId := fun x hx => id_ne_of_lt (hlb x hx)
      have hR : ∀ x ∈ inBidOrder R, x.bidId ≠ B.bidId := fun x hx =>
        (id_ne_of_lt (hbr x hx)).symm
      simp only [inBidOrder, List.filter_append, List.filter_cons,
        filter_id_ne_eq_self hL, filter_id_ne_eq_self hR,
        inBidOrder_removeNode_leftmost_of_tiesRight hRn (tiesRight_of_strictly_sorted hsr) hr2]
      have e := inBidOrder_eq_leftmost_cons hRn
      simp [← e]

/-! ## Listings and range search after a sequence of insertions -/

/-- C1: when bids with pairwise distinct ids are inserted into an empty tree, the
key-ordered listing is non-decreasing in `bidId` for the lexicographic order, and it has
as many entries as bids were inserted. -/
theorem InBidOrder_sorted_length (bids : List Bid)
    (_hdistinct : (bids.map fun b => b.bidId).Nodup) :
    ((InBidOrder (insertAll bids)).map fun b => b.bidId.data).Sorted (· ≤ ·) ∧
      (InBidOrder (insertAll bids)).length = bids.length :=
  ⟨List.pairwise_map.mpr (InBidOrder_insertAll_sorted bids),
    (InBidOrder_insertAll_perm bids).length_eq⟩

theorem InBidOrder_sorted_length_sample :
    (sampleBids.map fun b => b.bidId).Nodup ∧
      ((InBidOrder (insertAll sampleBids)).map fun b => b.bidId.data).Sorted (· ≤ ·) ∧
      (InBidOrder (insertAll sampleBids)).length = sampleBids.length :=
  ⟨by decide, InBidOrder_sorted_length sampleBids (by decide)⟩

/-- C2: whatever bids are inserted into an empty tree, ids and amounts repeated or not,
the amount-ordered listing is non-decreasing in `amount`. -/
theorem InAmountOrder_sorted (bids : List Bid) :
    ((InAmountOrder (insertAll bids)).map fun b => b.amount).Sorted (· ≤ ·) :=
  List.pairwise_map.mpr (InAmountOrder_insertAll_sorted bids)

/-- C3: on a tree built by insertions, for `low ≤ high`, the range search yields the
inserted bids whose amount lies between `low` and `high`, each as often as it was
inserted and no other bid, in non-decreasing order of amount; it yields nothing when no
inserted bid has its amount in the range. -/
theorem AmountSearch_range (bids : List Bid) (low high : ℚ) (_hrange : low ≤ high) :
    (AmountSearch (insertAll bids) low high).Perm
        (bids.filter fun b => decide (low ≤ b.amount ∧ b.amount ≤ high)) ∧
      ((AmountSearch (insertAll bids) low high).map fun b => b.amount).Sorted (· ≤ ·) ∧
      ((∀ b ∈ bids, ¬(low ≤ b.amount ∧ b.amount ≤ high)) →
        AmountSearch (insertAll bids) low high = []) := by
  have e : AmountSearch (insertAll bids) low high =
      (InAmountOrder (insertAll bids)).filter (inRange low high) :=
    amountSearch_eq_filter _ low high
  refine ⟨?_, ?_, ?_⟩
  · rw [e]
    exact (InAmountOrder_insertAll_perm bids).filter _
  · rw [e]
    exact List.pairwise_map.mpr ((InAmountOrder_insertAll_sorted bids).sublist
      (List.filter_sublist _))
  · intro hnone
    rw [e, List.filter_eq_nil_iff]
    intro b hb
    have hb2 : b ∈ bids := (InAmountOrder_insertAll_perm bids).mem_iff.mp hb
    simpa [inRange] using hnone b hb2

theorem AmountSearch_range_sample :
    (300 : ℚ) ≤ 500 ∧
      (AmountSearch (insertAll sampleBids) 300 500).Perm
        (sampleBids.filter fun b => decide ((300 : ℚ) ≤ b.amount ∧ b.amount ≤ 500)) ∧
      ((AmountSearch (insertAll sampleBids) 300 500).map fun b => b.amount).Sorted (· ≤ ·) ∧
      ((∀ b ∈ sampleBids, ¬((300 : ℚ) ≤ b.amount ∧ b.amount ≤ 500)) →
        AmountSearch (insertAll sampleBids) 300 500 = []) :=
  ⟨by decide, AmountSearch_range sampleBids 300 500 (by decide)⟩

/-- The listings and the range search of the three sample bids. -/
theorem sampleBids_listings :
    (InBidOrder (insertAll sampleBids)).map (fun b => b.bidId) = ["A1", "B2", "C3"] ∧
      (InAmountOrder (insertAll sampleBids)).map (fun b => b.bidId) = ["B2", "A1", "C3"] ∧
      (AmountSearch (insertAll sampleBids) 300 500).map (fun b => b.bidId) = ["B2", "A1"] := by
  decide

/-! ## Lookup and removal -/

/-- C4: after the calls `Insert M`, `Insert D`, `Insert B`, `Remove D` on an empty tree
(non-empty ids, none inserted twice) the id `"B"` was inserted and never removed, so the
lookup contract promises its bid. The calls leave no pointer to a deleted node, and
`BidSearch` returns the default bid with empty `bidId`, because removing the node of
`"D"`, whose only child is the left one, discards the node of `"B"` with it. -/
theorem BidSearch_after_Remove_loses_left_child :
    lookupContract ((leftChildBids.map Op.insert) ++ [Op.remove "D"]) "B" = { bidId := "B" } ∧
      (runOps ((leftChildBids.map Op.insert) ++ [Op.remove "D"])).map
        (fun s => BidSearch s "B") = some {} := by
  decide

/-- C5, as the code has it: on a tree built by inserting bids with distinct ids, whenever
`Remove` of a present id leaves no pointer to a deleted node, the amount-ordered listing
afterwards is the listing before, so the bid with that id is still listed there, and the
lookup of that id finds nothing. -/
theorem Remove_keeps_amount_listing (bids : List Bid)
    (hdistinct : (bids.map fun b => b.bidId).Nodup) (bidId : String)
    (hpresent : ∃ b ∈ bids, b.bidId = bidId) (s : BinarySearchTree)
    (hs : Remove (insertAll bids) bidId = some s) :
    InAmountOrder s = InAmountOrder (insertAll bids) ∧
      (∃ b ∈ InAmountOrder s, b.bidId = bidId) ∧
      BidSearch s bidId = {} := by
  obtain ⟨n, hn, rfl⟩ := Option.map_eq_some'.mp hs
  refine ⟨rfl, ?_, ?_⟩
  · obtain ⟨b, hb, hid⟩ := hpresent
    exact ⟨b, (InAmountOrder_insertAll_perm bids).mem_iff.mpr hb, hid⟩
  · have hd : DistinctIds (insertAll bids).root :=
      (((InBidOrder_insertAll_perm bids).map fun b : Bid => b.bidId).nodup_iff).mpr hdistinct
    have hsorted : (inBidOrder (insertAll bids).root).Pairwise idLt :=
      strictly_sorted (sorted_keyOrdered (InBidOrder_insertAll_sorted bids)) hd
    exact bidSearchFrom_of_absent fun x hx => id_ne_of_mem_removeNodeInPlace hsorted hn hx

theorem Remove_keeps_amount_listing_sample :
    InAmountOrder sampleWithoutC3 = InAmountOrder (insertAll sampleBids) ∧
      (∃ b ∈ InAmountOrder sampleWithoutC3, b.bidId = "C3") ∧
      BidSearch sampleWithoutC3 "C3" = {} :=
  Remove_keeps_amount_listing sampleBids (by decide) "C3" (by decide) sampleWithoutC3
    (by decide)

/-- C5 fails as stated: the three sample bids have distinct ids and `"C3"`, a leaf below
the root, is one of them; `Remove` of `"C3"` leaves no pointer to a deleted node, the
lookup of `"C3"` finds nothing afterwards, but the amount-ordered listing still holds the
bid with id `"C3"`. -/
theorem Remove_leaves_amount_entry_sample :
    (sampleBids.map fun b => b.bidId).Nodup ∧ (∃ b ∈ sampleBids, b.bidId = "C3") ∧
      Remove (insertAll sampleBids) "C3" = some sampleWithoutC3 ∧
      ¬(BidSearch sampleWithoutC3 "C3" = {} ∧
        ∀ b ∈ InAmountOrder sampleWithoutC3, b.bidId ≠ "C3") := by
  decide

/-- C6: in the ordered tree with distinct ids built from `"M"`, `"D"`, `"B"`, the node of
`"D"` has exactly one child, the left one, holding `"B"`. `removeNode` for `"D"` returns
the right link of that node, which is null, and deletes the node with its left subtree,
so the listing shrinks from `B, D, M` to `M` alone and the lookup of `"B"` finds
nothing. -/
theorem removeNode_left_child_discards_subtree :
    KeyOrdered (insertAll leftChildBids).root ∧ DistinctIds (insertAll leftChildBids).root ∧
      findNode (insertAll leftChildBids).root "D" =
        .mk (Node.new { bidId := "B" }) { bidId := "D" } .nullptr ∧
      (inBidOrder (insertAll leftChildBids).root).map (fun b => b.bidId) = ["B", "D", "M"] ∧
      (removeNode (insertAll leftChildBids).root "D").map
        (fun n => (inBidOrder n).map fun b => b.bidId) = some ["M"] ∧
      (removeNode (insertAll leftChildBids).root "D").map
        (fun n => bidSearchFrom n "B") = some {} := by
  decide

/-- C7: in the ordered tree with distinct ids built from `"D"`, `"B"`, `"F"`, `"G"`, the
node of `"D"` has two children and its in-order successor `"F"` has a right child `"G"`
and no left child. `removeNode` for `"D"` copies the bid `"F"` into the node and calls
itself on the right subtree for `"F"`; that call returns the right child `"G"` after
`delete temp` has deleted the node of `"F"` and, through the destructor, the node of
`"G"` with it. The right link of the root is left pointing to a deleted node, so the call
yields no tree whose listing could be `B, F, G`. -/
theorem removeNode_successor_right_child_deleted :
    KeyOrdered (insertAll successorRightBids).root ∧
      DistinctIds (insertAll successorRightBids).root ∧
      findNode (insertAll successorRightBids).root "D" =
        .mk (Node.new { bidId := "B" }) { bidId := "D" }
          (.mk .nullptr { bidId := "F" } (Node.new { bidId := "G" })) ∧
      leftmost (.mk .nullptr { bidId := "F" } (Node.new { bidId := "G" })) = { bidId := "F" } ∧
      removeNode (.mk .nullptr { bidId := "F" } (Node.new { bidId := "G" })) "F" = none ∧
      removeNode (insertAll successorRightBids).root "D" = none := by
  decide

/-- C8: on a tree whose key tree is ordered, `Remove` of an id that no stored bid has
changes nothing and leaves no pointer to a deleted node: the state, the key-ordered
listing and the amount-ordered listing are the same afterwards, and the same again after
a second `Remove` of that id. -/
theorem Remove_absent_id (t : BinarySearchTree) (bidId : String)
    (_hord : KeyOrdered t.root) (habsent : ∀ b ∈ InBidOrder t, b.bidId ≠ bidId) :
    Remove t bidId = some t ∧
      (Remove t bidId).map InBidOrder = some (InBidOrder t) ∧
      (Remove t bidId).map InAmountOrder = some (InAmountOrder t) ∧
      ((Remove t bidId).bind fun s => Remove s bidId) = some t ∧
      ((Remove t bidId).bind fun s => Remove s bidId).map InBidOrder =
        some (InBidOrder t) ∧
      ((Remove t bidId).bind fun s => Remove s bidId).map InAmountOrder =
        some (InAmountOrder t) := by
  have e : Remove t bidId = some t := by
    unfold Remove
    rw [removeNodeInPlace_of_absent habsent]
    rfl
  simp only [e, Option.map_some', Option.some_bind, and_self]

theorem Remove_absent_id_sample :
    Remove (insertAll sampleBids) "Z9" = some (insertAll sampleBids) ∧
      (Remove (insertAll sampleBids) "Z9").map InBidOrder =
        some (InBidOrder (insertAll sampleBids)) ∧
      (Remove (insertAll sampleBids) "Z9").map InAmountOrder =
        some (InAmountOrder (insertAll sampleBids)) ∧
      ((Remove (insertAll sampleBids) "Z9").bind fun s => Remove s "Z9") =
        some (insertAll sampleBids) ∧
      ((Remove (insertAll sampleBids) "Z9").bind fun s => Remove s "Z9").map InBidOrder =
        some (InBidOrder (insertAll sampleBids)) ∧
      ((Remove (insertAll sampleBids) "Z9").bind fun s => Remove s "Z9").map InAmountOrder =
        some (InAmountOrder (insertAll sampleBids)) :=
  Remove_absent_id (insertAll sampleBids) "Z9" (by decide) (by decide)

/-- C9: for every bid `b`, after `Insert(b)` on an empty tree, the call
`removeNode(root, b.bidId)` deletes the node of `b` and returns the null pointer, but
`Remove` drops that pointer: `root` is not reset and is left pointing to the deleted
node, so the state after `Remove(b.bidId)` is not the state with an empty key tree. -/
theorem Remove_only_bid_keeps_root (b : Bid) :
    removeNode (Insert BinarySearchTree.empty b).root b.bidId = some .nullptr ∧
      Remove (Insert BinarySearchTree.empty b) b.bidId = none ∧
      (Remove (Insert BinarySearchTree.empty b) b.bidId).map (fun s => s.root) ≠
        some .nullptr ∧
      (Remove (Insert BinarySearchTree.empty b) b.bidId).map InBidOrder ≠ some [] := by
  have e1 : removeNode (Insert BinarySearchTree.empty b).root b.bidId = some .nullptr := by
    simp [Insert, BinarySearchTree.empty, Node.isNull, Node.new, removeNode]
  have e2 : Remove (Insert BinarySearchTree.empty b) b.bidId = none := by
    simp [Remove, Insert, BinarySearchTree.empty, Node.isNull, Node.new, removeNodeInPlace]
  refine ⟨e1, e2, ?_, ?_⟩ <;> simp [e2]

/-- C10, as the code has it: for every tree and every bid, also one whose id the lookup
already finds, `Insert` makes no check and reports no error; it adds the bid to both
trees, so each listing afterwards is the listing before with the new bid added, and the
number of bids with that id in each listing is one more than before. -/
theorem Insert_adds_to_both_trees (t : BinarySearchTree) (bid : Bid) :
    (InBidOrder (Insert t bid)).Perm (bid :: InBidOrder t) ∧
      (InAmountOrder (Insert t bid)).Perm (bid :: InAmountOrder t) ∧
      (InBidOrder (Insert t bid)).countP (fun x => decide (x.bidId = bid.bidId)) =
        (InBidOrder t).countP (fun x => decide (x.bidId = bid.bidId)) + 1 ∧
      (InAmountOrder (Insert t bid)).countP (fun x => decide (x.bidId = bid.bidId)) =
        (InAmountOrder t).countP (fun x => decide (x.bidId = bid.bidId)) + 1 := by
  have hk : (InBidOrder (Insert t bid)).Perm (bid :: InBidOrder t) :=
    inBidOrder_insertKey_perm t.root bid
  have ha : (InAmountOrder (Insert t bid)).Perm (bid :: InAmountOrder t) :=
    inAmountOrder_insertAmount_perm t.amountRoot bid
  refine ⟨hk, ha, ?_, ?_⟩
  · rw [hk.countP_eq]
    simp
  · rw [ha.countP_eq]
    simp

/-- C10 fails as stated: once `dupBid` is stored its id is found by the lookup, and a
second `Insert` of it changes both trees and leaves two bids with that id in each
listing. -/
theorem Insert_duplicate_sample :
    ¬((BidSearch (Insert BinarySearchTree.empty dupBid) dupBid.bidId).bidId = dupBid.bidId →
        Insert (Insert BinarySearchTree.empty dupBid) dupBid =
            Insert BinarySearchTree.empty dupBid ∧
          (InBidOrder (Insert (Insert BinarySearchTree.empty dupBid) dupBid)).countP
            (fun x => decide (x.bidId = dupBid.bidId)) = 1 ∧
          (InAmountOrder (Insert (Insert BinarySearchTree.empty dupBid) dupBid)).countP
            (fun x => decide (x.bidId = dupBid.bidId)) = 1) := by
  decide

/-! ## Calls that the code does not reject -/

theorem amountSearchVisited_eq (n : Node) (low high : ℚ) :
    amountSearchVisited n low high = inAmountOrder n := by
  induction n with
  | nullptr => rfl
  | mk l b r ihl ihr => simp only [amountSearchVisited, inAmountOrder, ihl, ihr]

/-- After any sequence of calls that leaves no pointer to a deleted node, the amount
listing holds the old entries and every bid inserted, and every bid of the key listing is
in the amount listing if that was so before. -/
theorem runOpsFrom_listings (ops : List Op) (t s : BinarySearchTree)
    (h : ∀ b ∈ InBidOrder t, b ∈ InAmountOrder t) (hs : runOpsFrom t ops = some s) :
    (InAmountOrder s).Perm (InAmountOrder t ++ insertedBids ops) ∧
      ∀ b ∈ InBidOrder s, b ∈ InAmountOrder s := by
  induction ops generalizing t with
  | nil =>
    cases hs
    exact ⟨by simp [insertedBids], h⟩
  | cons op ops ih =>
    simp only [runOpsFrom] at hs
    obtain ⟨u, hu, hrest⟩ := Option.bind_eq_some.mp hs
    cases op with
    | insert bid =>
      cases hu
      have hp : (InAmountOrder (Insert t bid)).Perm (bid :: InAmountOrder t) :=
        inAmountOrder_insertAmount_perm t.amountRoot bid
      have hinv : ∀ b ∈ InBidOrder (Insert t bid), b ∈ InAmountOrder (Insert t bid) := by
        intro b hb
        have hb2 : b = bid ∨ b ∈ inBidOrder t.root := mem_inBidOrder_insertKey.mp hb
        refine mem_inAmountOrder_insertAmount.mpr ?_
        rcases hb2 with hb2 | hb2
        · exact Or.inl hb2
        · exact Or.inr (h b hb2)
      obtain ⟨h1, h2⟩ := ih (Insert t bid) hinv hrest
      refine ⟨h1.trans ?_, h2⟩
      simp only [insertedBids]
      exact (hp.append_right _).trans (by simpa using List.perm_middle.symm)
    | remove bidId =>
      obtain ⟨n, hn, rfl⟩ := Option.map_eq_some'.mp hu
      have hinv : ∀ b ∈ InBidOrder { t with root := n },
          b ∈ InAmountOrder { t with root := n } :=
        fun b hb => h b (mem_inBidOrder_removeNodeInPlace hn hb)
      obtain ⟨h1, h2⟩ := ih { t with root := n } hinv hrest
      exact ⟨h1, h2⟩

/-- C11, as the code has it: for every tree and every bid with a negative amount,
`Insert` makes no check of the amount and reports no error; it changes the state and adds
the bid to both trees like any other bid, and an amount listing that was sorted stays
sorted. -/
theorem Insert_negative_amount_stored (t : BinarySearchTree) (bid : Bid)
    (_hneg : bid.amount < 0) :
    Insert t bid ≠ t ∧
      (InBidOrder (Insert t bid)).Perm (bid :: InBidOrder t) ∧
      (InAmountOrder (Insert t bid)).Perm (bid :: InAmountOrder t) ∧
      ((InAmountOrder t).Pairwise amountLe → (InAmountOrder (Insert t bid)).Pairwise amountLe) := by
  have hk : (InBidOrder (Insert t bid)).Perm (bid :: InBidOrder t) :=
    inBidOrder_insertKey_perm t.root bid
  refine ⟨?_, hk, inAmountOrder_insertAmount_perm t.amountRoot bid,
    inAmountOrder_insertAmount_sorted t.amountRoot bid⟩
  intro e
  have hlen := hk.length_eq
  rw [e] at hlen
  simp at hlen

theorem Insert_negative_amount_stored_sample :
    negBid.amount < 0 ∧
      Insert (insertAll sampleBids) negBid ≠ insertAll sampleBids ∧
      (InBidOrder (Insert (insertAll sampleBids) negBid)).Perm
        (negBid :: InBidOrder (insertAll sampleBids)) ∧
      (InAmountOrder (Insert (insertAll sampleBids) negBid)).Perm
        (negBid :: InAmountOrder (insertAll sampleBids)) ∧
      ((InAmountOrder (insertAll sampleBids)).Pairwise amountLe →
        (InAmountOrder (Insert (insertAll sampleBids) negBid)).Pairwise amountLe) :=
  ⟨by decide, Insert_negative_amount_stored (insertAll sampleBids) negBid (by decide)⟩

/-- C11 fails as stated: `negBid` has the amount `-5`, and `Insert` of it into the empty
tree does not leave the trees unchanged; both listings hold it afterwards. -/
theorem Insert_negative_amount_sample :
    negBid.amount < 0 ∧
      ¬(Insert BinarySearchTree.empty negBid = BinarySearchTree.empty) ∧
      InBidOrder (Insert BinarySearchTree.empty negBid) = [negBid] ∧
      InAmountOrder (Insert BinarySearchTree.empty negBid) = [negBid] := by
  decide

/-- C12, as the code has it: for every tree and every `low > high`, `AmountSearch` reports
no error; it runs the range test at every node of the amount tree, as for any other
range, and yields the empty sequence. -/
theorem AmountSearch_inverted_range (t : BinarySearchTree) (low high : ℚ)
    (hinv : high < low) :
    AmountSearch t low high = [] ∧
      amountSearchVisited t.amountRoot low high = InAmountOrder t := by
  refine ⟨?_, amountSearchVisited_eq _ low high⟩
  show amountSearch t.amountRoot low high = []
  rw [amountSearch_eq_filter, List.filter_eq_nil_iff]
  intro b _
  simp only [inRange, decide_eq_true_eq, not_and, not_le]
  intro h1
  exact lt_of_lt_of_le hinv h1

theorem AmountSearch_inverted_range_sample :
    (300 : ℚ) < 500 ∧
      AmountSearch (insertAll sampleBids) 500 300 = [] ∧
      amountSearchVisited (insertAll sampleBids).amountRoot 500 300 =
        InAmountOrder (insertAll sampleBids) :=
  ⟨by decide, AmountSearch_inverted_range (insertAll sampleBids) 500 300 (by decide)⟩

/-- C12 fails as stated: on the tree of the three sample bids the call with the inverted
range `500, 300` cannot be told from the call with the valid range `1000, 2000`, in which
no bid lies; both yield the empty sequence, and the call with the inverted range has
visited all three nodes. -/
theorem AmountSearch_inverted_range_no_error_sample :
    (500 : ℚ) > 300 ∧ (1000 : ℚ) ≤ 2000 ∧
      ¬(AmountSearch (insertAll sampleBids) 500 300 ≠
          AmountSearch (insertAll sampleBids) 1000 2000) ∧
      (amountSearchVisited (insertAll sampleBids).amountRoot 500 300).length = 3 := by
  decide

/-- C13, as the code has it: after `Insert` calls alone the key-ordered listing is a
rearrangement of the amount-ordered listing. `Remove` works on the key tree only, so after
any sequence of `Insert` and `Remove` calls that leaves no pointer to a deleted node the
amount-ordered listing is a rearrangement of all the bids inserted, removed or not, and
every bid of the key-ordered listing is still in the amount-ordered listing. -/
theorem listings_after_calls (bids : List Bid) (ops : List Op) (s : BinarySearchTree)
    (hs : runOps ops = some s) :
    (InBidOrder (insertAll bids)).Perm (InAmountOrder (insertAll bids)) ∧
      (InAmountOrder s).Perm (insertedBids ops) ∧
      ∀ b ∈ InBidOrder s, b ∈ InAmountOrder s := by
  have h := runOpsFrom_listings ops BinarySearchTree.empty s
    (by simp [InBidOrder, BinarySearchTree.empty, inBidOrder]) hs
  refine ⟨(InBidOrder_insertAll_perm bids).trans (InAmountOrder_insertAll_perm bids).symm,
    ?_, h.2⟩
  have e : InAmountOrder BinarySearchTree.empty ++ insertedBids ops = insertedBids ops := by
    simp [InAmountOrder, BinarySearchTree.empty, inAmountOrder]
  rw [e] at h
  exact h.1

theorem listings_after_calls_sample :
    (InBidOrder (insertAll sampleBids)).Perm (InAmountOrder (insertAll sampleBids)) ∧
      (InAmountOrder sampleWithoutC3).Perm
        (insertedBids (sampleBids.map Op.insert ++ [Op.remove "C3"])) ∧
      ∀ b ∈ InBidOrder sampleWithoutC3, b ∈ InAmountOrder sampleWithoutC3 :=
  listings_after_calls sampleBids (sampleBids.map Op.insert ++ [Op.remove "C3"])
    sampleWithoutC3 (by decide)

/-- C13 fails as stated: the three sample bids are inserted and `"C3"` is removed, which
leaves no pointer to a deleted node; afterwards the key-ordered listing has two bids and
the amount-ordered listing three, so the one is not a rearrangement of the other. -/
theorem listings_differ_after_Remove_sample :
    runOps (sampleBids.map Op.insert ++ [Op.remove "C3"]) = some sampleWithoutC3 ∧
      (InBidOrder sampleWithoutC3).length = 2 ∧ (InAmountOrder sampleWithoutC3).length = 3 ∧
      ¬(InBidOrder sampleWithoutC3).Perm (InAmountOrder sampleWithoutC3) := by
  decide

/-- C17: on every amount tree, ordered or not, and for every `low` and `high`, the range
search yields the in-order listing of the tree filtered to the bids whose amount lies
between `low` and `high`; the range test is run at every node of the tree, whatever the
range, so no subtree is skipped. -/
theorem amountSearch_filters_listing (n : Node) (low high : ℚ) :
    amountSearch n low high =
        (inAmountOrder n).filter (fun b => decide (low ≤ b.amount ∧ b.amount ≤ high)) ∧
      amountSearchVisited n low high = inAmountOrder n :=
  ⟨amountSearch_eq_filter n low high, amountSearchVisited_eq n low high⟩

/-! ## The ordering invariant and the lookup after insertions -/

theorem addBid_eq_insertKey {n : Node} (h : n.isNull = false) (bid : Bid) :
    addBid n bid = insertKey n bid := by
  simp [insertKey, h]

theorem keyOrdered_insertKey {n : Node} (h : KeyOrdered n) (bid : Bid) :
    KeyOrdered (insertKey n bid) :=
  sorted_keyOrdered (inBidOrder_insertKey_sorted n bid (keyOrdered_sorted h))

theorem keyOrdered_addBid {n : Node} (h : KeyOrdered n) (bid : Bid) :
    KeyOrdered (addBid n bid) := by
  cases hn : n.isNull with
  | true =>
    rw [Node.isNull_eq_true] at hn
    subst hn
    trivial
  | false =>
    rw [addBid_eq_insertKey hn]
    exact keyOrdered_insertKey h bid

theorem bidSearchFrom_eq_getD (n : Node) (bidId : String) :
    bidSearchFrom n bidId = (bidSearchOpt n bidId).getD {} := by
  induction n with
  | nullptr => rfl
  | mk l b r ihl ihr =>
    simp only [bidSearchFrom, bidSearchOpt]
    split_ifs
    · rfl
    · exact ihl
    · exact ihr

/-- The lookup after an insertion: a bid that the descent found before is still the one
found; when the descent found none, the new bid is found if it carries the id. -/
theorem bidSearchOpt_insertKey (n : Node) (bid : Bid) (bidId : String) :
    bidSearchOpt (insertKey n bid) bidId =
      (bidSearchOpt n bidId).or (if bid.bidId = bidId then some bid else none) := by
  induction n with
  | nullptr =>
    simp only [insertKey_nullptr, Node.new, bidSearchOpt, Option.or]
    split_ifs <;> rfl
  | mk l b r ihl ihr =>
    rw [insertKey_mk]
    by_cases hb : b.bidId = bidId
    · split_ifs <;> simp [bidSearchOpt, hb, Option.or]
    · by_cases hlt : bid.bidId.data < b.bidId.data
      · rw [if_pos hlt]
        simp only [bidSearchOpt, if_neg hb]
        by_cases h2 : bidId.data < b.bidId.data
        · simp only [if_pos h2]
          exact ihl
        · simp only [if_neg h2]
          have hne : bid.bidId ≠ bidId := fun e => h2 (e ▸ hlt)
          simp [hne]
      · rw [if_neg hlt]
        simp only [bidSearchOpt, if_neg hb]
        by_cases h2 : bidId.data < b.bidId.data
        · simp only [if_pos h2]
          have hne : bid.bidId ≠ bidId := fun e => hlt (e ▸ h2)
          simp [hne]
        · simp only [if_neg h2]
          exact ihr

theorem foldl_Insert_bidSearchOpt (bids : List Bid) (t : BinarySearchTree) (bidId : String) :
    bidSearchOpt (bids.foldl Insert t).root bidId =
      (bidSearchOpt t.root bidId).or (bids.find? fun b => decide (b.bidId = bidId)) := by
  induction bids generalizing t with
  | nil => simp
  | cons b bs ih =>
    rw [List.foldl_cons, ih (Insert t b), Insert_root, bidSearchOpt_insertKey, List.find?_cons]
    by_cases hb : b.bidId = bidId
    · cases bidSearchOpt t.root bidId <;> simp [hb]
    · cases bidSearchOpt t.root bidId <;> simp [hb]

/-- C14: the key tree built from the three sample bids is ordered, and the node of `"B2"`
has a right child only, below the root. `removeNode` for `"B2"` returns that right child
after `delete temp` has deleted it together with the node of `"B2"`, so the right link of
the root is left pointing to a deleted node: neither `removeNode` nor `Remove` yields a
tree of which the ordering could hold. -/
theorem removeNode_right_child_no_ordered_tree :
    KeyOrdered (insertAll sampleBids).root ∧
      findNode (insertAll sampleBids).root "B2" =
        .mk .nullptr { bidId := "B2", amount := 300 }
          (Node.new { bidId := "C3", amount := 750 }) ∧
      removeNode (insertAll sampleBids).root "B2" = none ∧
      Remove (insertAll sampleBids) "B2" = none ∧
      ¬∃ n, removeNode (insertAll sampleBids).root "B2" = some n ∧ KeyOrdered n := by
  have e : removeNode (insertAll sampleBids).root "B2" = none := by decide
  refine ⟨by decide, by decide, e, by decide, ?_⟩
  rintro ⟨n, hn, _⟩
  rw [e] at hn
  cases hn

/-- C15: after the bids of a sequence are inserted into an empty tree, duplicate ids
allowed, the lookup of an id returns the first bid of the sequence that carries the id,
and the default bid with empty `bidId` when no bid of the sequence carries it. -/
theorem BidSearch_first_inserted (bids : List Bid) (bidId : String) :
    BidSearch (insertAll bids) bidId =
      (bids.find? fun b => decide (b.bidId = bidId)).getD {} := by
  show bidSearchFrom (bids.foldl Insert BinarySearchTree.empty).root bidId = _
  rw [bidSearchFrom_eq_getD, foldl_Insert_bidSearchOpt]
  simp [BinarySearchTree.empty, bidSearchOpt]

/-! ## The amount listing is the stable sort of the insertions -/

/-- In a tree with a sorted amount listing, a new bid is listed after the bids of its own
amount that are already there. -/
theorem filter_amount_insertAmount (n : Node) (bid : Bid) (a : ℚ)
    (h : (inAmountOrder n).Pairwise amountLe) :
    (inAmountOrder (insertAmount n bid)).filter (fun b => decide (b.amount = a)) =
      (inAmountOrder n).filter (fun b => decide (b.amount = a)) ++
        (if bid.amount = a then [bid] else []) := by
  induction n with
  | nullptr =>
    simp only [insertAmount_nullptr, Node.new, inAmountOrder, List.nil_append,
      List.filter_cons, List.filter_nil, decide_eq_true_eq]
  | mk l b r ihl ihr =>
    simp only [inAmountOrder, List.pairwise_append, List.pairwise_cons, List.mem_cons] at h
    obtain ⟨hl, ⟨hbr, hr⟩, _⟩ := h
    rw [insertAmount_mk]
    split_ifs with hlt ha ha
    · have hnone : (b :: inAmountOrder r).filter (fun x => decide (x.amount = a)) = [] := by
        rw [List.filter_eq_nil_iff]
        intro y hy
        have hy2 : b.amount ≤ y.amount := by
          rcases List.mem_cons.mp hy with rfl | hy
          · exact le_refl _
          · exact hbr y hy
        have : a < y.amount := lt_of_lt_of_le (ha ▸ hlt) hy2
        simpa using (ne_of_gt this)
      simp only [inAmountOrder, List.filter_append, ihl hl, if_pos ha, hnone, List.append_nil]
    · simp only [inAmountOrder, List.filter_append, ihl hl, if_neg ha, List.append_nil]
    · simp only [inAmountOrder, List.filter_append, List.filter_cons, ihr hr, if_pos ha]
      split_ifs <;> simp
    · simp only [inAmountOrder, List.filter_append, List.filter_cons, ihr hr, if_neg ha,
        List.append_nil]

theorem foldl_Insert_filter_amount (bids : List Bid) (t : BinarySearchTree) (a : ℚ)
    (h : (InAmountOrder t).Pairwise amountLe) :
    (InAmountOrder (bids.foldl Insert t)).filter (fun b => decide (b.amount = a)) =
      (InAmountOrder t).filter (fun b => decide (b.amount = a)) ++
        bids.filter (fun b => decide (b.amount = a)) := by
  induction bids generalizing t with
  | nil => simp
  | cons b bs ih =>
    have hs : (InAmountOrder (Insert t b)).Pairwise amountLe :=
      inAmountOrder_insertAmount_sorted t.amountRoot b h
    have e : (InAmountOrder (Insert t b)).filter (fun x => decide (x.amount = a)) =
        (InAmountOrder t).filter (fun x => decide (x.amount = a)) ++
          (if b.amount = a then [b] else []) :=
      filter_amount_insertAmount t.amountRoot b a h
    rw [List.foldl_cons, ih (Insert t b) hs, e, List.filter_cons]
    split_ifs <;> simp_all

/-- Two lists sorted by amount that hold, for every amount, the same bids of that amount
in the same order are equal. -/
theorem eq_of_sorted_of_filter_amount_eq {xs ys : List Bid} (hx : xs.Pairwise amountLe)
    (hy : ys.Pairwise amountLe)
    (hf : ∀ a : ℚ, xs.filter (fun b => decide (b.amount = a)) =
      ys.filter (fun b => decide (b.amount = a))) : xs = ys := by
  induction xs generalizing ys with
  | nil =>
    cases ys with
    | nil => rfl
    | cons y ys =>
      have h := hf y.amount
      simp at h
  | cons x xs ih =>
    cases ys with
    | nil =>
      have h := hf x.amount
      simp at h
    | cons y ys =>
      obtain ⟨hx1, hx2⟩ := List.pairwise_cons.mp hx
      obtain ⟨hy1, hy2⟩ := List.pairwise_cons.mp hy
      have hxy : y.amount ≤ x.amount := by
        have hm : x ∈ (y :: ys).filter (fun b => decide (b.amount = x.amount)) := by
          rw [← hf x.amount]
          simp
        have hm2 : x ∈ y :: ys := (List.mem_filter.mp hm).1
        rcases List.mem_cons.mp hm2 with e | hm2
        · exact le_of_eq (congrArg Bid.amount e.symm)
        · exact hy1 x hm2
      have hyx : x.amount ≤ y.amount := by
        have hm : y ∈ (x :: xs).filter (fun b => decide (b.amount = y.amount)) := by
          rw [hf y.amount]
          simp
        have hm2 : y ∈ x :: xs := (List.mem_filter.mp hm).1
        rcases List.mem_cons.mp hm2 with e | hm2
        · exact le_of_eq (congrArg Bid.amount e.symm)
        · exact hx1 y hm2
      have hamt : y.amount = x.amount := le_antisymm hxy hyx
      have hhead := hf x.amount
      simp only [List.filter_cons, hamt, decide_True, if_true, List.cons.injEq] at hhead
      obtain ⟨hxy2, _⟩ := hhead
      subst hxy2
      congr 1
      apply ih hx2 hy2
      intro a
      have h := hf a
      simp only [List.filter_cons] at h
      split_ifs at h
      · exact (List.cons.inj h).2
      · exact h

theorem amountLeB_trans (a b c : Bid) :
    decide (a.amount ≤ b.amount) = true → decide (b.amount ≤ c.amount) = true →
      decide (a.amount ≤ c.amount) = true := by
  simp only [decide_eq_true_eq]
  exact le_trans

theorem amountLeB_total (a b : Bid) :
    (decide (a.amount ≤ b.amount) || decide (b.amount ≤ a.amount)) = true := by
  simp only [Bool.or_eq_true, decide_eq_true_eq]
  exact le_total _ _

/-- The library merge sort by amount keeps the bids of each amount in their order. -/
theorem filter_amount_mergeSort (bids : List Bid) (a : ℚ) :
    (bids.mergeSort fun x y => decide (x.amount ≤ y.amount)).filter
        (fun b => decide (b.amount = a)) =
      bids.filter (fun b => decide (b.amount = a)) := by
  have hsub : (bids.filter fun b => decide (b.amount = a)).Sublist
      (bids.mergeSort fun x y => decide (x.amount ≤ y.amount)) := by
    apply List.sublist_mergeSort amountLeB_trans amountLeB_total
    · rw [List.pairwise_iff_forall_sublist]
      intro x y hxy
      have hx : x ∈ bids.filter fun b => decide (b.amount = a) := hxy.subset (by simp)
      have hy : y ∈ bids.filter fun b => decide (b.amount = a) := hxy.subset (by simp)
      have ex : x.amount = a := by simpa using (List.mem_filter.mp hx).2
      have ey : y.amount = a := by simpa using (List.mem_filter.mp hy).2
      simp [ex, ey]
    · exact List.filter_sublist _
  have hsub2 : (bids.filter fun b => decide (b.amount = a)).Sublist
      ((bids.mergeSort fun x y => decide (x.amount ≤ y.amount)).filter
        (fun b => decide (b.amount = a))) := by
    have h := hsub.filter (fun b => decide (b.amount = a))
    simpa only [List.filter_filter, Bool.and_self] using h
  have hlen : ((bids.mergeSort fun x y => decide (x.amount ≤ y.amount)).filter
      (fun b => decide (b.amount = a))).length =
      (bids.filter fun b => decide (b.amount = a)).length :=
    ((List.mergeSort_perm bids _).filter _).length_eq
  exact (hsub2.eq_of_length hlen.symm).symm

/-- C16: after the bids of a sequence are inserted into an empty tree, the amount-ordered
listing is the stable sort of the sequence by amount: it is a rearrangement of the bids
inserted, it is non-decreasing in amount, the bids of one amount stand in the order of
their insertion, and it equals the merge sort of the sequence by amount. -/
theorem InAmountOrder_stable_sort (bids : List Bid) :
    (InAmountOrder (insertAll bids)).Perm bids ∧
      ((InAmountOrder (insertAll bids)).map fun b => b.amount).Sorted (· ≤ ·) ∧
      (∀ a : ℚ, (InAmountOrder (insertAll bids)).filter (fun b => decide (b.amount = a)) =
        bids.filter (fun b => decide (b.amount = a))) ∧
      InAmountOrder (insertAll bids) =
        bids.mergeSort (fun x y => decide (x.amount ≤ y.amount)) := by
  have hs := InAmountOrder_insertAll_sorted bids
  have hf : ∀ a : ℚ,
      (InAmountOrder (insertAll bids)).filter (fun b => decide (b.amount = a)) =
        bids.filter (fun b => decide (b.amount = a)) := by
    intro a
    have h := foldl_Insert_filter_amount bids BinarySearchTree.empty a
      (by simp [InAmountOrder, BinarySearchTree.empty, inAmountOrder])
    simpa [InAmountOrder, BinarySearchTree.empty, inAmountOrder, insertAll] using h
  refine ⟨InAmountOrder_insertAll_perm bids, List.pairwise_map.mpr hs, hf, ?_⟩
  apply eq_of_sorted_of_filter_amount_eq hs
  · have h := List.sorted_mergeSort amountLeB_trans amountLeB_total bids
    exact h.imp (fun hab => by simpa [amountLe] using hab)
  · intro a
    rw [hf a, filter_amount_mergeSort]

/-! ## Ascending insertions, and the nested call of the two-children branch -/

theorem insertKey_rightSpine (bs : List Bid) (x : Bid)
    (h : ∀ b ∈ bs, ¬x.bidId.data < b.bidId.data) :
    insertKey (rightSpine bs) x = rightSpine (bs ++ [x]) := by
  induction bs with
  | nil => rfl
  | cons b bs ih =>
    have e : rightSpine (b :: bs ++ [x]) = .mk .nullptr b (rightSpine (bs ++ [x])) := rfl
    rw [e]
    simp only [rightSpine]
    rw [insertKey_mk, if_neg (h b (List.mem_cons_self _ _)),
      ih fun c hc => h c (List.mem_cons_of_mem _ hc)]

theorem foldl_Insert_rightSpine (bids pre : List Bid) (t : BinarySearchTree)
    (ht : t.root = rightSpine pre) (hs : (pre ++ bids).Pairwise idLt) :
    (bids.foldl Insert t).root = rightSpine (pre ++ bids) := by
  induction bids generalizing t pre with
  | nil => simpa using ht
  | cons b bs ih =>
    have hb : ∀ c ∈ pre, ¬b.bidId.data < c.bidId.data := by
      intro c hc
      have hcb : idLt c b := (List.pairwise_append.mp hs).2.2 c hc b (List.mem_cons_self _ _)
      exact not_lt_of_gt hcb
    have hroot : (Insert t b).root = rightSpine (pre ++ [b]) := by
      rw [Insert_root, ht]
      exact insertKey_rightSpine pre b hb
    have h := ih (pre ++ [b]) (Insert t b) hroot (by simpa using hs)
    simpa using h

theorem noLeftChild_rightSpine (bs : List Bid) : NoLeftChild (rightSpine bs) := by
  induction bs with
  | nil => trivial
  | cons b bs ih => exact ⟨rfl, ih⟩

theorem height_rightSpine (bs : List Bid) : height (rightSpine bs) = bs.length := by
  induction bs with
  | nil => rfl
  | cons b bs ih => simp [rightSpine, height, ih]

/-- C18: when `n` bids are inserted into an empty tree in strictly ascending order of id,
the key tree is a chain of right links: no node has a left child, and the height of the
tree is `n`. -/
theorem ascending_inserts_right_spine (n : Nat) (bids : List Bid) (hlen : bids.length = n)
    (hasc : bids.Pairwise idLt) :
    NoLeftChild (insertAll bids).root ∧ height (insertAll bids).root = n := by
  have e : (insertAll bids).root = rightSpine bids := by
    have h := foldl_Insert_rightSpine bids [] BinarySearchTree.empty rfl (by simpa using hasc)
    simpa [insertAll] using h
  rw [e]
  exact ⟨noLeftChild_rightSpine bids, (height_rightSpine bids).trans hlen⟩

theorem ascending_inserts_right_spine_sample :
    NoLeftChild (insertAll ascendingBids).root ∧ height (insertAll ascendingBids).root = 4 :=
  ascending_inserts_right_spine 4 ascendingBids (by decide) (by decide)

/-- C19: `removeNode` returns on every tree and every id, with the nesting of its calls
bounded by the height of the tree. On a tree ordered as the code keeps it, with equal ids
on the right only, when the node of `bidId` has two children `l` and `r`, the nested call
on `r` with the id of the successor matches the leftmost node of `r`, which has no left
child, so it does not reach the two-children branch at that node; that call returns as
well. -/
theorem removeNode_returns_nested_leftmost (n : Node) (bidId : String) :
    removeNodeFuel (height n + 1) n bidId = some (removeNode n bidId) ∧
      (TiesRightOrdered n → ∀ l b r, findNode n bidId = .mk l b r →
        l.isNull = false → r.isNull = false →
          matchesLeftmost r = true ∧
            removeNodeFuel (height r + 1) r (leftmost r).bidId =
              some (removeNode r (leftmost r).bidId)) := by
  refine ⟨removeNodeFuel_eq n bidId _ (Nat.lt_succ_self _), ?_⟩
  intro ho l b r hfind _ hr
  have hsub : TiesRightOrdered (.mk l b r) := hfind ▸ tiesRight_findNode ho bidId
  obtain ⟨_, _, _, hor⟩ := hsub
  exact ⟨matchesLeftmost_of_tiesRight hr hor, removeNodeFuel_eq r _ _ (Nat.lt_succ_self _)⟩

theorem removeNode_returns_nested_leftmost_sample :
    removeNodeFuel (height (insertAll twoChildBids).root + 1) (insertAll twoChildBids).root "D" =
        some (removeNode (insertAll twoChildBids).root "D") ∧
      matchesLeftmost
          (.mk (Node.new { bidId := "E" }) { bidId := "F" } (Node.new { bidId := "G" })) = true ∧
      removeNodeFuel
          (height (.mk (Node.new { bidId := "E" }) { bidId := "F" } (Node.new { bidId := "G" })) + 1)
          (.mk (Node.new { bidId := "E" }) { bidId := "F" } (Node.new { bidId := "G" }))
          (leftmost (.mk (Node.new { bidId := "E" }) { bidId := "F" }
            (Node.new { bidId := "G" }))).bidId =
        some (removeNode
          (.mk (Node.new { bidId := "E" }) { bidId := "F" } (Node.new { bidId := "G" }))
          (leftmost (.mk (Node.new { bidId := "E" }) { bidId := "F" }
            (Node.new { bidId := "G" }))).bidId) :=
  ⟨(removeNode_returns_nested_leftmost (insertAll twoChildBids).root "D").1,
    (removeNode_returns_nested_leftmost (insertAll twoChildBids).root "D").2 (by decide)
      (Node.new { bidId := "B" }) { bidId := "D" }
      (.mk (Node.new { bidId := "E" }) { bidId := "F" } (Node.new { bidId := "G" }))
      (by decide) rfl rfl⟩

/-- C20: the key tree built from `"M"`, `"D"`, `"F"` is ordered, with ties on the right
only, and its listing is `D, F, M`; the node of `"D"` has a right child only, below the
root. `removeNode` for `"D"` returns that right child after `delete temp` has deleted it
together with the node of `"D"`, so the left link of the root is left pointing to a
deleted node and the call yields no tree whose listing could be the sublist `F, M`. -/
theorem removeNode_right_child_no_listing :
    KeyOrdered (insertAll rightChildBids).root ∧
      TiesRightOrdered (insertAll rightChildBids).root ∧
      (inBidOrder (insertAll rightChildBids).root).map (fun b => b.bidId) = ["D", "F", "M"] ∧
      findNode (insertAll rightChildBids).root "D" =
        .mk .nullptr { bidId := "D" } (Node.new { bidId := "F" }) ∧
      removeNode (insertAll rightChildBids).root "D" = none := by
  decide

/-! ## Insertion leaves the lookup of other ids alone -/

/-- On any tree, the lookup of an id other than the id of the bid inserted gives the same
bid before and after the insertion. -/
theorem bidSearchFrom_insertKey_of_ne (n : Node) (bid : Bid) {bidId : String}
    (hne : bidId ≠ bid.bidId) :
    bidSearchFrom (insertKey n bid) bidId = bidSearchFrom n bidId := by
  rw [bidSearchFrom_eq_getD, bidSearchFrom_eq_getD, bidSearchOpt_insertKey,
    if_neg (fun e => hne e.symm), Option.or_none]

/-- C21: on a tree built by insertions, for every bid `b` and every id different from
`b.bidId`, the lookup of that id returns the same result after `Insert(b)` as before it. -/
theorem BidSearch_Insert_other_id (bids : List Bid) (b : Bid) (bidId : String)
    (hne : bidId ≠ b.bidId) :
    BidSearch (Insert (insertAll bids) b) bidId = BidSearch (insertAll bids) bidId :=
  bidSearchFrom_insertKey_of_ne (insertAll bids).root b hne

theorem BidSearch_Insert_other_id_sample :
    "B2" ≠ dupBid.bidId ∧
      BidSearch (Insert (insertAll sampleBids) dupBid) "B2" =
        BidSearch (insertAll sampleBids) "B2" :=
  ⟨by decide, BidSearch_Insert_other_id sampleBids dupBid "B2" (by decide)⟩

end BST
